import Mathlib

/-
Verification of the twee2-tools passage/project model.

This file gives a shallow embedding of the Python sources
`twee2tools/passages.py`, `twee2tools/projects.py` and `twee2tools/util.py`
and proves/refutes the frozen specification claims about them.

Python strings are modelled as Lean `String`s, with all character-level
operations (splitting, joining, regex matching) implemented as executable
recursive functions over `String.data : List Char`.
-/

namespace Twee

/-! ## Generic character-list utilities -/

/-- Splitting a character list at every occurrence of a separator character.
Models Python `str.split(sep)` for a one-character separator: the result
always has one more part than there are separators, and parts may be empty. -/
def splitChar (sep : Char) : List Char → List (List Char)
  | [] => [[]]
  | c :: cs =>
    if c = sep then [] :: splitChar sep cs
    else
      match splitChar sep cs with
      | [] => [[c]]
      | p :: ps => (c :: p) :: ps

/-- Joining a list of strings with a separator. Models Python `sep.join(xs)`. -/
def joinSep (sep : String) : List String → String
  | [] => ""
  | [x] => x
  | x :: y :: rest => x ++ sep ++ joinSep sep (y :: rest)

/-- Concatenation of a list of strings (sequential file writes). -/
def concatStrings : List String → String
  | [] => ""
  | s :: ss => s ++ concatStrings ss

/-! ## Passage data model (`passages.py`) -/

/-- The name path delimiter (`NAME_PATH_DELIMITER = '.'`). -/
def NAME_PATH_DELIMITER : String := "."

/-- Passage names which will not end up in files (`SPECIAL_PASSAGES`). -/
def SPECIAL_PASSAGES : List String :=
  ["Start", "StorySubtitle", "StoryAuthor", "StoryMenu",
   "StorySettings", "StoryIncludes"]

/-- Passage tags which will not end up in files (`SPECIAL_TAGS`). -/
def SPECIAL_TAGS : List String := ["stylesheet", "script", "haml", "twee2"]

/-- Names of special project-level passages (`PROJECT_PASSAGES`). -/
def PROJECT_PASSAGES : List String :=
  ["PassageDone", "PassageHeader", "PassageFooter", "PassageReady",
   "Start", "StoryAuthor", "StoryBanner", "StoryCaption", "StoryInit",
   "StoryInterface", "StoryMenu", "StorySettings", "StoryShare",
   "StorySubtitle", "StoryTitle", "StoryIncludes"]

/-- Tags of special project-level passages (`PROJECT_TAGS`). -/
def PROJECT_TAGS : List String := ["script", "stylesheet", "widget"]

/-- Module under which project-level passages are grouped
(`PROJECT_PASSAGES_MODULE = 'stella'`). -/
def PROJECT_PASSAGES_MODULE : String := "stella"

/-- A Twee passage (class `Passage`). The constructor defaults of the Python
class (`tags=[]`, `geometry=()`, `content=[]`) are applied at each use site.
Python's geometry tuple is modelled as a list. -/
structure Passage where
  name : String
  tags : List String
  geometry : List String
  content : List String
deriving DecidableEq

/-- Helper for `split_name`: characters before the first `'.'`, and the
characters after it (`partition` yields an empty remainder when the
delimiter is absent). -/
def splitNameAux : List Char → List Char × List Char
  | [] => ([], [])
  | c :: cs =>
    if c = '.' then ([], cs)
    else
      let r := splitNameAux cs
      (c :: r.1, r.2)

/-- Name fragment of the root of a passage name, and the remainder
(function `split_name`, built on `str.partition(NAME_PATH_DELIMITER)`). -/
def split_name (s : String) : String × String :=
  (String.mk (splitNameAux s.data).1, String.mk (splitNameAux s.data).2)

/-- The remainder of a split is strictly shorter than the input when it is
nonempty (the fragment and the delimiter are dropped). -/
theorem splitNameAux_snd_lt (l : List Char) (h : (splitNameAux l).2 ≠ []) :
    (splitNameAux l).2.length < l.length := by
  induction l with
  | nil => simp [splitNameAux] at h
  | cons c cs ih =>
    by_cases hc : c = '.'
    · simp [splitNameAux, hc]
    · simp only [splitNameAux, if_neg hc] at h ⊢
      exact Nat.lt_trans (ih h) (Nat.lt_succ_self _)

/-- String-level form of `splitNameAux_snd_lt`. -/
theorem split_name_snd_lt (s : String) (h : (split_name s).2 ≠ "") :
    (split_name s).2.length < s.length := by
  have hne : (splitNameAux s.data).2 ≠ [] := by
    intro hnil
    apply h
    show String.mk (splitNameAux s.data).2 = ""
    rw [hnil]
  show (String.mk (splitNameAux s.data).2).data.length < s.data.length
  exact splitNameAux_snd_lt s.data hne

/-- Header line of a passage (property `Passage.passage_header`):
`'::' + name`, then `' [' + ' '.join(tags) + ']'` when tags are nonempty,
then `' <' + ','.join(geometry) + '>'` when geometry is nonempty. -/
def Passage.passage_header (p : Passage) : String :=
  "::" ++ p.name
    ++ (if p.tags ≠ [] then " [" ++ joinSep " " p.tags ++ "]" else "")
    ++ (if p.geometry ≠ [] then " <" ++ joinSep "," p.geometry ++ ">" else "")

/-- Content of a passage joined by newlines (property `Passage.combined_content`). -/
def Passage.combined_content (p : Passage) : String :=
  joinSep "\n" p.content

/-- String form of a passage (method `Passage.__str__`):
`'\n'.join((passage_header, combined_content))`. -/
def Passage.str (p : Passage) : String :=
  p.passage_header ++ "\n" ++ p.combined_content

/-- Python `repr` of a string, as used by `Passage.__repr__` via
`repr(self.tags)` / `repr(self.geometry)`. Models CPython's behaviour on
printable ASCII text: a quote character is chosen (single quote, unless the
text contains a single quote but no double quote), and occurrences of the
quote character and of the backslash are escaped. -/
def pyReprStr (s : String) : String :=
  let q : Char := if s.data.contains '\'' ∧ ¬ s.data.contains '"' then '"' else '\''
  String.mk (q :: (s.data.flatMap (fun c => if c = q ∨ c = '\\' then ['\\', c] else [c])) ++ [q])

/-- Python `repr` of a list of strings: `[x1, x2, ...]` with `repr`ed elements. -/
def pyReprStrList (xs : List String) : String :=
  "[" ++ joinSep ", " (xs.map pyReprStr) ++ "]"

/-- Python `repr` of a tuple of strings: `(x1, x2)`, with the trailing comma
of one-element tuples (`('x',)`). -/
def pyReprStrTuple (xs : List String) : String :=
  match xs with
  | [x] => "(" ++ pyReprStr x ++ ",)"
  | _ => "(" ++ joinSep ", " (xs.map pyReprStr) ++ ")"

/-- Python `repr` of a passage (method `Passage.__repr__`):
`Passage(<name>` then `, tags=<repr tags>` if tags are nonempty, then
`, geometry=<repr geometry>` if geometry is nonempty, then `)`. The name is
inserted verbatim, not `repr`ed. -/
def Passage.pyRepr (p : Passage) : String :=
  "Passage(" ++ p.name
    ++ (if p.tags ≠ [] then ", tags=" ++ pyReprStrList p.tags else "")
    ++ (if p.geometry ≠ [] then ", geometry=" ++ pyReprStrTuple p.geometry else "")
    ++ ")"

/-- Whether the passage's name is special (property `Passage.is_special_passage`). -/
def Passage.is_special_passage (p : Passage) : Bool :=
  SPECIAL_PASSAGES.contains p.name

/-- The passage's tags that are special (property `Passage.special_tags`). -/
def Passage.special_tags (p : Passage) : List String :=
  p.tags.filter (fun t => SPECIAL_TAGS.contains t)

/-- Whether the passage is a project-level passage (property `Passage.project_passage`). -/
def Passage.project_passage (p : Passage) : Bool :=
  PROJECT_PASSAGES.contains p.name

/-- The passage's tags that are project-level (property `Passage.project_tags`). -/
def Passage.project_tags (p : Passage) : List String :=
  p.tags.filter (fun t => PROJECT_TAGS.contains t)

/-- Full name of a passage (property `Passage.full_name`): project-level
passages are prefixed with the project passages module and the delimiter. -/
def Passage.full_name (p : Passage) : String :=
  if p.project_passage || p.project_tags ≠ [] then
    PROJECT_PASSAGES_MODULE ++ NAME_PATH_DELIMITER ++ p.name
  else p.name

/-! ## The passage header regex (`PASSAGE_HEADER`)

The Python sources match header lines against the regular expression

  `^:: *([^\[]*?) *(\[(.*?)\])? *(<(.*?)>)? *$`

with CPython `re` backtracking semantics. The functions below enumerate, in
exactly the backtracking preference order of that engine, the candidate ways
of matching each piece of the pattern; the overall match is the first
complete candidate. Greedy pieces (` *` and the optional groups) list their
longest/group-matching alternatives first, lazy pieces (`[^\[]*?`, `.*?`)
list their shortest alternatives first. Lines never contain `'\n'`, so `.`
matches any character that occurs. -/

/-- Alternatives for a greedy run of spaces (` *`): the remaining input after
consuming `k` spaces, for `k` from the maximal run length down to 0. -/
def spChoices (s : List Char) : List (List Char) :=
  let k := (s.takeWhile (fun c => c = ' ')).length
  (List.range (k + 1)).map (fun i => s.drop (k - i))

/-- Alternatives for the lazy name group (`([^\[]*?)`): pairs of captured
name and remaining input, for name lengths from 0 up to the maximal run of
non-bracket characters. -/
def nameChoices (s : List Char) : List (List Char × List Char) :=
  let m := (s.takeWhile (fun c => c ≠ '[')).length
  (List.range (m + 1)).map (fun n => (s.take n, s.drop n))

/-- Alternatives for a lazy group body (`(.*?)`) terminated by a closing
character: every split of the input at an occurrence of the closing
character, shortest body first. -/
def innerSplits (cls : Char) (body : List Char) : List (List Char × List Char) :=
  (List.range body.length).filterMap (fun i =>
    if body[i]? = some cls then some (body.take i, body.drop (i + 1)) else none)

/-- Alternatives for an optional bracketed group (`(\[(.*?)\])?` or
`(<(.*?)>)?`): if the input starts with the opening character, first every
way of matching the group (captured body paired with the remainder), then
the empty alternative of skipping the optional group. -/
def groupChoices (opn cls : Char) (s : List Char) : List (Option (List Char) × List Char) :=
  match s with
  | c :: body =>
    if c = opn then
      (innerSplits cls body).map (fun p => (some p.1, p.2)) ++ [(none, c :: body)]
    else [(none, c :: body)]
  | [] => [(none, [])]

/-- Candidate matches for the part of the pattern after the name group:
` *(\[(.*?)\])? *(<(.*?)>)? *$`. Each result is the captured tag group and
the captured geometry group, in backtracking preference order. -/
def trailerMatches (r : List Char) : List (Option (List Char) × Option (List Char)) :=
  (spChoices r).flatMap (fun r3 =>
  (groupChoices '[' ']' r3).flatMap (fun tg =>
  (spChoices tg.2).flatMap (fun r5 =>
  (groupChoices '<' '>' r5).flatMap (fun gm =>
  (spChoices gm.2).filterMap (fun r7 =>
    if r7 = [] then some (tg.1, gm.1) else none)))))

/-- Candidate matches for the whole pattern
`^:: *([^\[]*?) *(\[(.*?)\])? *(<(.*?)>)? *$` against a full line, in
backtracking preference order: the literal `::` is required, then the greedy
leading spaces, the lazy name group, and the trailer. Each result is
(name group, tag group, geometry group). The Python match succeeds exactly
when this list is nonempty, and yields the first element. -/
def headerMatches (s : List Char) : List (List Char × Option (List Char) × Option (List Char)) :=
  match s with
  | ':' :: ':' :: t =>
    (spChoices t).flatMap (fun r1 =>
    (nameChoices r1).flatMap (fun nm =>
    (trailerMatches nm.2).map (fun tgm => (nm.1, tgm.1, tgm.2))))
  | _ => []

/-- Whether a line matches the passage header regex
(`PASSAGE_HEADER.match(line) is not None`). -/
def isHeaderLine (l : String) : Bool :=
  ! (headerMatches l.data).isEmpty

/-- Parsing of a passage header line (function `parse_passage_header`):
`(None, None, None)` when the regex does not match; otherwise the name
capture, the tag capture split on spaces with empty tags dropped (or `None`
when the tag group did not participate), and the geometry capture split on
commas (or `None`). -/
def parse_passage_header (line : String) :
    Option String × Option (List String) × Option (List String) :=
  match (headerMatches line.data).head? with
  | none => (none, none, none)
  | some (nm, tg, gm) =>
    (some (String.mk nm),
     tg.map (fun t => ((splitChar ' ' t).filter (fun x => x ≠ [])).map String.mk),
     gm.map (fun g => (splitChar ',' g).map String.mk))

/-! ## Passage assembly (`parse_lines`) -/

/-- The passage built from a matching header line
(`Passage(*parse_passage_header(line))`): Python's `None` arguments select
the constructor defaults. The name capture is always present when the
header regex matched, which is the only situation where this is used. -/
def passageOfHeaderLine (l : String) : Passage :=
  match parse_passage_header l with
  | (nm, tg, gm) => { name := nm.getD "", tags := tg.getD [], geometry := gm.getD [], content := [] }

/-- Loop of `parse_lines`: `cur` is the current passage (initially none),
`acc` the passages already closed. A ValueError raised on a content line
with no open passage is modelled as `Except.error` carrying that line. -/
def parse_lines_go (cur : Option Passage) (acc : List Passage) :
    List String → Except String (List Passage)
  | [] => .ok (acc ++ cur.toList)
  | l :: ls =>
    if isHeaderLine l then
      parse_lines_go (some (passageOfHeaderLine l)) (acc ++ cur.toList) ls
    else
      match cur with
      | none => .error l
      | some p => parse_lines_go (some { p with content := p.content ++ [l] }) acc ls

/-- Parsing of a list of lines into passages in encounter order
(function `parse_lines`). -/
def parse_lines (lines : List String) : Except String (List Passage) :=
  parse_lines_go none [] lines

/-! ## Natural sort keys (`util.atoi`, `util.natural_keys`) -/

/-- A component of a natural sort key: an integer (from a digit run) or a
string piece, as produced by `atoi` applied to the pieces of
`re.split('(\d+)', ...)`. -/
abbrev NatKeyPart := Sum Nat String

mutual

/-- State of `re.split('(\d+)', s)` while scanning a non-digit run:
`acc` holds the run read so far, reversed. Pieces alternate, beginning and
ending with a (possibly empty) non-digit string piece. -/
def reSplitND (acc : List Char) : List Char → List NatKeyPart
  | [] => [Sum.inr (String.mk acc.reverse)]
  | c :: cs =>
    if c.isDigit then
      Sum.inr (String.mk acc.reverse) :: reSplitD (c.toNat - 48) cs
    else reSplitND (c :: acc) cs

/-- State of `re.split('(\d+)', s)` while scanning a digit run, with the
value accumulated so far; `atoi` turns the maximal digit run into the
integer `n` (decimal, leading zeros allowed). -/
def reSplitD (n : Nat) : List Char → List NatKeyPart
  | [] => [Sum.inl n, Sum.inr ""]
  | c :: cs =>
    if c.isDigit then reSplitD (10 * n + (c.toNat - 48)) cs
    else Sum.inl n :: reSplitND [c] cs

end

/-- Natural sort key of a passage (function `util.natural_keys`):
`[atoi(c) for c in re.split('(\d+)', repr(text))]`, where `text` is the
passage object, so `repr(text)` is `Passage.__repr__`. -/
def natural_keys (p : Passage) : List NatKeyPart :=
  reSplitND [] p.pyRepr.data

/-- Strict lexicographic comparison of character lists by code point,
modelling Python `<` on strings. -/
def strLt : List Char → List Char → Bool
  | [], [] => false
  | [], _ :: _ => true
  | _ :: _, [] => false
  | a :: as, b :: bs =>
    if a.toNat < b.toNat then true
    else if b.toNat < a.toNat then false
    else strLt as bs

/-- Strict comparison of key parts, as Python `<` on the parts: integers
numerically, strings lexicographically by code point. Python raises a
TypeError on an integer/string comparison; between values of
`natural_keys` the deciding position always holds two parts of the same
kind (pieces alternate string/int starting with a string), so the value
returned for mismatched kinds is never observable; it is fixed arbitrarily. -/
def keyPartLt : NatKeyPart → NatKeyPart → Bool
  | .inl m, .inl n => m < n
  | .inr s, .inr t => strLt s.data t.data
  | .inl _, .inr _ => true
  | .inr _, .inl _ => false

/-- Strict lexicographic comparison of key lists, as Python `<` on lists. -/
def keysLt : List NatKeyPart → List NatKeyPart → Bool
  | [], [] => false
  | [], _ :: _ => true
  | _ :: _, [] => false
  | a :: as, b :: bs => if keyPartLt a b then true else if keyPartLt b a then false else keysLt as bs

/-- Stable insertion of a passage into a list sorted by natural keys: the
new passage goes before the first element whose key is not strictly
smaller. Together with `sortPassages` this models Python's stable
`sorted(passages, key=util.natural_keys)`. -/
def insertSorted (x : Passage) : List Passage → List Passage
  | [] => [x]
  | y :: ys =>
    if keysLt (natural_keys y) (natural_keys x) then y :: insertSorted x ys
    else x :: y :: ys

/-- Stable sort of passages by natural keys (`sorted(passages, key=util.natural_keys)`;
any stable sort by the same keys produces the same list). -/
def sortPassages : List Passage → List Passage
  | [] => []
  | x :: xs => insertSorted x (sortPassages xs)

/-! ## Passage filtering (`filter_passages`) -/

/-- Insertion of one key/value pair into an insertion-ordered mapping, as
`collections.OrderedDict` does: an existing key keeps its position and gets
the new value; a new key is appended. -/
def odInsert (m : List (String × Passage)) (k : String) (v : Passage) : List (String × Passage) :=
  if m.any (fun kv => kv.1 = k) then
    m.map (fun kv => if kv.1 = k then (kv.1, v) else kv)
  else m ++ [(k, v)]

/-- Building an `OrderedDict` from a list of key/value pairs. -/
def odOfList (l : List (String × Passage)) : List (String × Passage) :=
  l.foldl (fun m kv => odInsert m kv.1 kv.2) []

/-- Lookup in an insertion-ordered mapping. -/
def odLookup (m : List (String × Passage)) (k : String) : Option Passage :=
  (m.find? (fun kv => kv.1 = k)).map (fun kv => kv.2)

/-- Whether `filter_passages` keeps a passage:
`not (passage.is_special_passage or passage.special_tags)`. -/
def keepPassage (p : Passage) : Bool :=
  ! (p.is_special_passage || ! p.special_tags.isEmpty)

/-- The ordered mapping of passages included in a project (function
`filter_passages`): sort by natural keys, drop special passages and
passages with special tags, key the survivors by their full names in an
`OrderedDict`. -/
def filter_passages (ps : List Passage) : List (String × Passage) :=
  odOfList (((sortPassages ps).filter keepPassage).map (fun p => (p.full_name, p)))

/-! ## Project tree (`projects.py`) -/

/-- The minimum additional depth inside a node for the node to be a
submodule (`SUBMODULE_HEIGHT_THRESHOLD = 3`). -/
def SUBMODULE_HEIGHT_THRESHOLD : Nat := 3

/-- A node of the project tree (class `ProjectNode`). The Python class
stores `name_fragment` and a `parent` back-reference on every node; here a
node owns its passage and its ordered children (an `OrderedDict` from name
fragment to child, modelled as an association list), while the name
fragment, the parent and the depth of a node are supplied by its context
where needed. -/
inductive ProjectNode where
  | mk (passage : Option Passage) (children : List (String × ProjectNode))

/-- Passage directly attached to a node. -/
def ProjectNode.passage : ProjectNode → Option Passage
  | .mk p _ => p

/-- Ordered children of a node. -/
def ProjectNode.children : ProjectNode → List (String × ProjectNode)
  | .mk _ cs => cs

mutual

/-- Height of a node (property `ProjectNode.height`): 0 for a node without
children, else one more than the maximal child height. -/
def ProjectNode.height : ProjectNode → Nat
  | .mk _ [] => 0
  | .mk _ (c :: cs) => 1 + heightChildren (c :: cs)

/-- Maximal height over a list of children. -/
def heightChildren : List (String × ProjectNode) → Nat
  | [] => 0
  | (_, c) :: rest => Nat.max c.height (heightChildren rest)

end

/-- Whether a node at the given depth is the root (property
`ProjectNode.is_root`: the root is the unique node without a parent, i.e.
the node at depth 0). -/
def is_root (d : Nat) : Bool := d == 0

/-- Whether a node at the given depth is a module (property
`ProjectNode.is_module`: depth 1). -/
def is_module (d : Nat) : Bool := d == 1

/-- Whether a node at the given depth is a submodule (property
`ProjectNode.is_submodule`: depth 2 and height at least the threshold). -/
def ProjectNode.is_submodule (d : Nat) (t : ProjectNode) : Bool :=
  d == 2 && SUBMODULE_HEIGHT_THRESHOLD ≤ t.height

/-- Whether a node is a file (property `ProjectNode.is_file`). The node sits
at depth `d` and `parent` is its parent node (at depth `d - 1`); the root
(depth 0, where `parent` is irrelevant) is never a file. -/
def is_file (d : Nat) (parent t : ProjectNode) : Bool :=
  if d == 0 then false
  else if parent.is_submodule (d - 1) then true
  else if is_module (d - 1) then t.passage.isSome || ! (t.is_submodule d)
  else false

/-- Whether a node has an includes manifest (property
`ProjectNode.has_includes`): root, modules and submodules. -/
def has_includes (d : Nat) (t : ProjectNode) : Bool :=
  is_root d || is_module d || t.is_submodule d

/-- Names of the children of a node (at depth `d`) that are modules or
submodules (property `ProjectNode.directories`); the children sit at depth
`d + 1`, and a child's stored key equals its name fragment. -/
def ProjectNode.directories (d : Nat) (t : ProjectNode) : List String :=
  (t.children.filter (fun kc => is_module (d + 1) || kc.2.is_submodule (d + 1))).map (fun kc => kc.1)

/-- Names of the children of a node that are files (property
`ProjectNode.files`). -/
def ProjectNode.files (d : Nat) (t : ProjectNode) : List String :=
  (t.children.filter (fun kc => is_file (d + 1) t kc.2)).map (fun kc => kc.1)

/-- The includes manifest entries of a node (property
`ProjectNode.includes`): the directories, each with a trailing `/`, then
the files. -/
def ProjectNode.includes (d : Nat) (t : ProjectNode) : List String :=
  (t.directories d).map (fun dir => dir ++ "/") ++ t.files d

mutual

/-- Passages stored at or below a node (property `ProjectNode.passages`):
the node's own passage, then — unless the node is a submodule with a
passage, whose children are retrieved separately — the passages of the
children in order. -/
def ProjectNode.passagesOf (d : Nat) : ProjectNode → List Passage
  | .mk (some p) cs =>
    if (ProjectNode.mk (some p) cs).is_submodule d then [p]
    else p :: passagesOfChildren (d + 1) cs
  | .mk none cs => passagesOfChildren (d + 1) cs

/-- Passages of a list of children, concatenated in order. -/
def passagesOfChildren (d : Nat) : List (String × ProjectNode) → List Passage
  | [] => []
  | (_, c) :: rest => c.passagesOf d ++ passagesOfChildren d rest

end

/-- Adding a child by name fragment (method `ProjectNode.add_child` with
`overwrite=False, child=None`, the only way it is invoked): when the key is
already present the existing child is kept untouched, otherwise a fresh
empty node is appended under that key. The Python method returns the child;
callers that then mutate it are modelled with `mapChild` below. -/
def ProjectNode.add_child (t : ProjectNode) (k : String) : ProjectNode :=
  if t.children.any (fun kv => kv.1 = k) then t
  else .mk t.passage (t.children ++ [(k, .mk none [])])

/-- In-place mutation of the child stored under a key. -/
def mapChild (t : ProjectNode) (k : String) (f : ProjectNode → ProjectNode) : ProjectNode :=
  .mk t.passage (t.children.map (fun kv => if kv.1 = k then (kv.1, f kv.2) else kv))

/-- Recursion kernel of `add_passage`. The Python method recurses on the
name remainder, which shrinks at every step; here the recursion is driven
by a fuel counter that dominates the name length, so that the function is
structurally recursive (and hence computable by the kernel). The
source-shaped unfolding is recovered by `ProjectNode.add_passage_eq`. -/
def add_passage_fuel : Nat → ProjectNode → Passage → String → ProjectNode
  | 0, t, _, _ => t
  | fuel + 1, t, p, passage_name =>
    let fr := split_name passage_name
    if fr.2 = "" then
      mapChild (t.add_child passage_name) passage_name (fun c => .mk (some p) c.children)
    else
      mapChild (t.add_child fr.1) fr.1 (fun c => add_passage_fuel fuel c p fr.2)

/-- Attaching a passage under a node (method `ProjectNode.add_passage`):
split the name; with an empty remainder, descend into (or create) the child
keyed by the whole remaining name and set its passage; otherwise descend
into (or create) the child keyed by the first fragment and recurse with the
remainder. -/
def ProjectNode.add_passage (t : ProjectNode) (p : Passage) (passage_name : String) : ProjectNode :=
  add_passage_fuel (passage_name.length + 1) t p passage_name

/-- Fuel irrelevance: any fuel beyond the name length computes `add_passage`. -/
theorem add_passage_fuel_eq (fuel : Nat) (t : ProjectNode) (p : Passage) (passage_name : String)
    (h : passage_name.length < fuel) :
    add_passage_fuel fuel t p passage_name = t.add_passage p passage_name := by
  induction fuel using Nat.strong_induction_on generalizing t passage_name with
  | _ fuel ih =>
    match fuel, h with
    | fuel + 1, h =>
      show _ = add_passage_fuel (passage_name.length + 1) t p passage_name
      simp only [add_passage_fuel]
      by_cases he : (split_name passage_name).2 = ""
      · simp [he]
      · simp only [if_neg he]
        have hlt := split_name_snd_lt passage_name he
        have h1 : (split_name passage_name).2.length < fuel := by omega
        congr 1
        funext c
        rw [ih fuel (Nat.lt_succ_self _) c _ h1]
        exact (ih passage_name.length h c _ hlt).symm

/-- Source-shaped unfolding of `add_passage`, matching the Python method
equation for equation-based reasoning. -/
theorem ProjectNode.add_passage_eq (t : ProjectNode) (p : Passage) (passage_name : String) :
    t.add_passage p passage_name =
      (let fr := split_name passage_name
       if fr.2 = "" then
         mapChild (t.add_child passage_name) passage_name (fun c => .mk (some p) c.children)
       else
         mapChild (t.add_child fr.1) fr.1 (fun c => c.add_passage p fr.2)) := by
  show add_passage_fuel (passage_name.length + 1) t p passage_name = _
  simp only [add_passage_fuel]
  by_cases he : (split_name passage_name).2 = ""
  · simp [he]
  · simp only [if_neg he]
    congr 1
    funext c
    exact add_passage_fuel_eq _ c p _ (split_name_snd_lt passage_name he)

/-- Building the project tree from an ordered mapping of passages
(function `populate_project_tree`): fold `add_passage` over the items of
the mapping, starting from an empty root. -/
def populate_project_tree (ps : List (String × Passage)) : ProjectNode :=
  ps.foldl (fun t kv => t.add_passage kv.2 kv.1) (.mk none [])

/-- Descending from a node along a list of child keys. -/
def lookupPath : ProjectNode → List String → Option ProjectNode
  | t, [] => some t
  | t, s :: ss =>
    match t.children.find? (fun kv => kv.1 = s) with
    | none => none
    | some kv => lookupPath kv.2 ss

/-- Fuel-driven kernel of `pathSegs`, structurally recursive like
`add_passage_fuel`. -/
def pathSegs_fuel : Nat → String → List String
  | 0, _ => []
  | fuel + 1, s =>
    let fr := split_name s
    if fr.2 = "" then [s]
    else fr.1 :: pathSegs_fuel fuel fr.2

/-- The sequence of child keys along which `add_passage` descends for a
given passage name: the whole remaining name when the remainder is empty,
otherwise the first fragment followed by the path of the remainder. -/
def pathSegs (s : String) : List String :=
  pathSegs_fuel (s.length + 1) s

/-- Fuel irrelevance for `pathSegs_fuel`. -/
theorem pathSegs_fuel_eq (fuel : Nat) (s : String) (h : s.length < fuel) :
    pathSegs_fuel fuel s = pathSegs s := by
  induction fuel using Nat.strong_induction_on generalizing s with
  | _ fuel ih =>
    match fuel, h with
    | fuel + 1, h =>
      show _ = pathSegs_fuel (s.length + 1) s
      simp only [pathSegs_fuel]
      by_cases he : (split_name s).2 = ""
      · simp [he]
      · simp only [if_neg he]
        have hlt := split_name_snd_lt s he
        rw [ih fuel (Nat.lt_succ_self _) _ (by omega)]
        rw [(ih s.length h _ hlt).symm]

/-- Source-shaped unfolding of `pathSegs`. -/
theorem pathSegs_eq (s : String) :
    pathSegs s =
      (let fr := split_name s
       if fr.2 = "" then [s]
       else fr.1 :: pathSegs fr.2) := by
  show pathSegs_fuel (s.length + 1) s = _
  simp only [pathSegs_fuel]
  by_cases he : (split_name s).2 = ""
  · simp [he]
  · simp only [if_neg he]
    rw [pathSegs_fuel_eq _ _ (split_name_snd_lt s he)]

/-! ## Filesystem reconstruction (`reconstruct`, `write_includes`, `write_passages`) -/

/-- A filesystem side effect emitted by reconstruction. -/
inductive FsAction where
  | mkdir (path : String)
  | write (path : String) (content : String)
deriving DecidableEq

/-- Path concatenation, modelling `os.path.join(root, name)` for the paths
produced here (a nonempty root with no trailing separator). -/
def pathJoin (a b : String) : String := a ++ "/" ++ b

/-- Content of an includes manifest (method `ProjectNode.write_includes`):
each entry followed by a newline. -/
def write_includes_content (d : Nat) (t : ProjectNode) : String :=
  concatStrings ((t.includes d).map (fun line => line ++ "\n"))

/-- Content of a passage file (method `ProjectNode.write_passages`):
`str(passage) + '\n'` for each stored passage, concatenated. -/
def write_passages_content (d : Nat) (t : ProjectNode) : String :=
  concatStrings ((t.passagesOf d).map (fun p => p.str ++ "\n"))

mutual

/-- Reconstruction of a node (method `ProjectNode.reconstruct`) as the list
of filesystem actions it performs, in order. The node sits at depth `d`
under `parent` with name fragment `frag`, and writes into `root`. -/
def ProjectNode.reconstruct (d : Nat) (frag : String) (parent t : ProjectNode) (root : String) :
    List FsAction :=
  (if has_includes d t then
     [FsAction.mkdir root,
      FsAction.write (pathJoin root "includes.txt") (write_includes_content d t)]
   else [])
  ++ (if is_file d parent t && ! (t.is_submodule d) then
        [FsAction.write (pathJoin root (frag ++ ".tw2")) (write_passages_content d t)]
      else [])
  ++ (match t with
      | .mk p cs => reconstructChildren (d + 1) (.mk p cs) cs root)
termination_by sizeOf t

/-- Per-child part of `reconstruct`: module/submodule children recurse into
a subdirectory (and a submodule child that is also a file additionally
writes its passage file into the current directory); file children recurse
in place. -/
def reconstructChildren (d : Nat) (parent : ProjectNode) :
    List (String × ProjectNode) → String → List FsAction
  | [], _ => []
  | (k, c) :: rest, root =>
    (if is_module d || c.is_submodule d then
       ProjectNode.reconstruct d k parent c (pathJoin root k)
       ++ (if c.is_submodule d && is_file d parent c then
             [FsAction.write (pathJoin root (k ++ ".tw2")) (write_passages_content d c)]
           else [])
     else if is_file d parent c then
       ProjectNode.reconstruct d k parent c root
     else [])
    ++ reconstructChildren d parent rest root
termination_by l _ => sizeOf l

end

/-! ## Helper lemmas -/

/-- A passage with the given name and no tags, geometry or content, as used
by the concrete scenarios of the specification. -/
def demoPassage (n : String) : Passage :=
  { name := n, tags := [], geometry := [], content := [] }

/-- Membership in a stable insertion. -/
theorem mem_insertSorted {a x : Passage} {l : List Passage} :
    a ∈ insertSorted x l ↔ a = x ∨ a ∈ l := by
  induction l with
  | nil => simp [insertSorted]
  | cons y ys ih =>
    by_cases hc : keysLt (natural_keys y) (natural_keys x) = true
    · simp only [insertSorted, if_pos hc, List.mem_cons, ih]
      tauto
    · simp only [insertSorted, if_neg hc, List.mem_cons]

/-- A stable insertion is a permutation of consing. -/
theorem insertSorted_perm (x : Passage) (l : List Passage) :
    List.Perm (insertSorted x l) (x :: l) := by
  induction l with
  | nil => simp [insertSorted]
  | cons y ys ih =>
    by_cases hc : keysLt (natural_keys y) (natural_keys x) = true
    · simp only [insertSorted, if_pos hc]
      exact List.Perm.trans (List.Perm.cons y ih) (List.Perm.swap x y ys)
    · simp [insertSorted, if_neg hc]

/-- Sorting permutes the passage list. -/
theorem sortPassages_perm (ps : List Passage) : List.Perm (sortPassages ps) ps := by
  induction ps with
  | nil => simp [sortPassages]
  | cons x xs ih =>
    exact List.Perm.trans (insertSorted_perm x (sortPassages xs)) (List.Perm.cons x ih)

/-- Members of an ordered-dict insertion come from the dict or are the
inserted pair. -/
theorem mem_odInsert {kv : String × Passage} {m : List (String × Passage)}
    {k : String} {v : Passage} (h : kv ∈ odInsert m k v) :
    kv ∈ m ∨ kv = (k, v) := by
  unfold odInsert at h
  by_cases hc : m.any (fun kv => kv.1 = k) = true
  · rw [if_pos hc] at h
    obtain ⟨x, hx, hfx⟩ := List.mem_map.mp h
    by_cases hk : x.1 = k
    · right
      rw [if_pos hk] at hfx
      rw [← hfx, hk]
    · left
      rw [if_neg hk] at hfx
      exact hfx ▸ hx
  · rw [if_neg hc] at h
    rcases List.mem_append.mp h with h1 | h1
    · exact Or.inl h1
    · exact Or.inr (List.mem_singleton.mp h1)

/-- Members of an ordered dict built by folding come from the seed or the
pair list. -/
theorem mem_foldl_odInsert {kv : String × Passage} :
    ∀ (l : List (String × Passage)) (m : List (String × Passage)),
      kv ∈ l.foldl (fun m kv => odInsert m kv.1 kv.2) m → kv ∈ m ∨ kv ∈ l := by
  intro l
  induction l with
  | nil => intro m h; exact Or.inl h
  | cons x xs ih =>
    intro m h
    rcases ih (odInsert m x.1 x.2) h with h1 | h1
    · rcases mem_odInsert h1 with h2 | h2
      · exact Or.inl h2
      · right
        simp [h2]
    · right
      exact List.mem_cons_of_mem _ h1

/-- Members of an ordered dict come from its pair list. -/
theorem mem_odOfList {kv : String × Passage} {l : List (String × Passage)}
    (h : kv ∈ odOfList l) : kv ∈ l := by
  rcases mem_foldl_odInsert l [] h with h1 | h1
  · simp at h1
  · exact h1

/-- Updating a value in place never changes keys. -/
theorem odInsert_update_fst (k0 : String) (v : Passage) (kv : String × Passage) :
    (if kv.1 = k0 then (kv.1, v) else kv).1 = kv.1 := by
  by_cases h : kv.1 = k0 <;> simp [h]

/-- Inserting preserves and adds key presence. -/
theorem odInsert_hasKey (m : List (String × Passage)) (k0 : String) (v : Passage) (k : String) :
    (odInsert m k0 v).any (fun kv => kv.1 = k) =
      (m.any (fun kv => kv.1 = k) || (k0 = k : Bool)) := by
  unfold odInsert
  by_cases hc : m.any (fun kv => kv.1 = k0) = true
  · rw [if_pos hc, List.any_map]
    have hfun : ((fun kv : String × Passage => decide (kv.1 = k)) ∘
        (fun kv => if kv.1 = k0 then (kv.1, v) else kv)) =
        (fun kv : String × Passage => decide (kv.1 = k)) := by
      funext kv
      simp [Function.comp, odInsert_update_fst]
    rw [hfun]
    by_cases hk : k0 = k
    · subst hk
      simp [hc]
    · simp [hk]
  · rw [if_neg hc]
    simp [List.any_append]

/-- Folding insertions preserves key presence from the pair list. -/
theorem foldl_odInsert_hasKey (k : String) :
    ∀ (l : List (String × Passage)) (m : List (String × Passage)),
      (m.any (fun kv => kv.1 = k) = true ∨ ∃ kv ∈ l, kv.1 = k) →
      (l.foldl (fun m kv => odInsert m kv.1 kv.2) m).any (fun kv => kv.1 = k) = true := by
  intro l
  induction l with
  | nil =>
    intro m h
    rcases h with h | ⟨kv, hkv, _⟩
    · exact h
    · simp at hkv
  | cons x xs ih =>
    intro m h
    apply ih
    rcases h with h | ⟨kv, hkv, hk⟩
    · left
      rw [odInsert_hasKey]
      simp [h]
    · rcases List.mem_cons.mp hkv with h1 | h1
      · left
        rw [odInsert_hasKey]
        subst h1
        simp [hk]
      · exact Or.inr ⟨kv, h1, hk⟩

/-- A key occurring in the pair list is present in the ordered dict. -/
theorem odOfList_hasKey {l : List (String × Passage)} {k : String}
    (h : ∃ kv ∈ l, kv.1 = k) : (odLookup (odOfList l) k).isSome = true := by
  have hany : (odOfList l).any (fun kv => kv.1 = k) = true :=
    foldl_odInsert_hasKey k l [] (Or.inr h)
  obtain ⟨kv, hmem, hk⟩ := List.any_eq_true.mp hany
  simp only [decide_eq_true_eq] at hk
  have hfind : (List.find? (fun kv => kv.1 = k) (odOfList l)).isSome = true :=
    List.find?_isSome.mpr ⟨kv, hmem, by simp [hk]⟩
  obtain ⟨y, hy⟩ := Option.isSome_iff_exists.mp hfind
  unfold odLookup
  rw [hy]
  rfl

/-! ## Claim C1 -/

/-- C1: for every non-root node, `is_file` follows the case analysis on the
parent: true if the parent is a submodule; if the parent is a module, true
exactly when the node carries a passage or is not itself a submodule;
otherwise false — in particular every child of the root (depth 1) has
`is_file` false. -/
theorem c1_is_file_case_analysis (d : Nat) (parent t : ProjectNode) (h : 1 ≤ d) :
    (is_file d parent t = true ↔
      (parent.is_submodule (d - 1) = true ∨
        (is_module (d - 1) = true ∧
         (t.passage.isSome = true ∨ ¬ t.is_submodule d = true)))) ∧
    is_file 1 parent t = false := by
  constructor
  · have hd : (d == 0) = false := by
      simp only [beq_eq_false_iff_ne, ne_eq]
      omega
    unfold is_file
    rw [hd]
    simp only [Bool.false_eq_true, if_false]
    by_cases h1 : parent.is_submodule (d - 1) = true
    · simp [h1]
    · simp only [Bool.not_eq_true] at h1
      rw [h1]
      simp only [Bool.false_eq_true, if_false, h1]
      by_cases h2 : is_module (d - 1) = true
      · simp [h2]
      · simp only [Bool.not_eq_true] at h2
        rw [h2]
        simp [h2]
  · unfold is_file
    simp [ProjectNode.is_submodule, is_module]

/-- Witness for C1 at depth 1. -/
theorem c1_witness :
    is_file 1 (ProjectNode.mk none []) (ProjectNode.mk none []) = false :=
  (c1_is_file_case_analysis 1 (ProjectNode.mk none []) (ProjectNode.mk none []) (by decide)).2

/-! ## Claim C2 -/

/-- The tree built from passages `m.a`, `m.a.x`, `m.a.y`, `m.a.z`. -/
def c2tree1 : ProjectNode :=
  populate_project_tree
    [("m.a", demoPassage "m.a"), ("m.a.x", demoPassage "m.a.x"),
     ("m.a.y", demoPassage "m.a.y"), ("m.a.z", demoPassage "m.a.z")]

/-- The tree built from passages `m.a`, `m.a.x`, `m.a.x.y`, `m.a.x.y.z`
(a chain of height 3 below `a`). -/
def c2tree2 : ProjectNode :=
  populate_project_tree
    [("m.a", demoPassage "m.a"), ("m.a.x", demoPassage "m.a.x"),
     ("m.a.x.y", demoPassage "m.a.x.y"), ("m.a.x.y.z", demoPassage "m.a.x.y.z")]

/-- The tree built from the single passage `m.b`. -/
def c2tree3 : ProjectNode :=
  populate_project_tree [("m.b", demoPassage "m.b")]

/-- C2 counterexample: in the tree built from `m.a`, `m.a.x`, `m.a.y`,
`m.a.z`, the node for segment `a` exists but is not a submodule (its height
is 1, below the threshold 3), contradicting the claim. -/
theorem c2_counterexample :
    (lookupPath c2tree1 ["m", "a"]).map
        (fun a => (a.height, a.is_submodule 2)) = some (1, false) := by
  decide

/-- C2 amended: in the tree from `m.a`, `m.a.x`, `m.a.y`, `m.a.z` the node
`a` has height 1, below the threshold 3, so it is not a submodule — it is a
file (it carries a passage under a module); `a` becomes a submodule when
its subtree has height at least 3, as in the tree from `m.a`, `m.a.x`,
`m.a.x.y`, `m.a.x.y.z`; and in the tree from the single passage `m.b`, the
node `b` has height 0, `is_file` true and `is_submodule` false. -/
theorem c2_amended :
    ((lookupPath c2tree1 ["m", "a"]).map
        (fun a => (a.height, a.is_submodule 2)) = some (1, false))
  ∧ ((lookupPath c2tree1 ["m"]).bind
        (fun m => (lookupPath m ["a"]).map (fun a => is_file 2 m a)) = some true)
  ∧ ((lookupPath c2tree2 ["m", "a"]).map
        (fun a => (a.height, a.is_submodule 2)) = some (3, true))
  ∧ ((lookupPath c2tree3 ["m", "b"]).map
        (fun b => (b.height, b.is_submodule 2)) = some (0, false))
  ∧ ((lookupPath c2tree3 ["m"]).bind
        (fun m => (lookupPath m ["b"]).map (fun b => is_file 2 m b)) = some true) := by
  decide

/-! ## Claim C3 -/

/-- C3 counterexample: a passage named `StoryTitle` (no tags) is not
filtered out — it stays in the filtered passage mapping under the key
`stella.StoryTitle` (its name is in `PROJECT_PASSAGES`, not in
`SPECIAL_PASSAGES`), contradicting the claim that it is absent. -/
theorem c3_counterexample :
    odLookup (filter_passages [demoPassage "StoryTitle"]) "stella.StoryTitle" =
      some (demoPassage "StoryTitle") := by
  decide

/-- C3 amended: in every filtered passage mapping, a passage named `Start`
is absent and a passage tagged `script` is absent; but a passage named
`StoryTitle` is not dropped — when it carries no special tag it is kept,
keyed under `stella.StoryTitle`. -/
theorem c3_amended (ps : List Passage) :
    (∀ kv ∈ filter_passages ps, kv.2.name ≠ "Start" ∧ "script" ∉ kv.2.tags)
  ∧ (∀ p ∈ ps, p.name = "StoryTitle" → p.special_tags = [] →
      (odLookup (filter_passages ps) "stella.StoryTitle").isSome = true) := by
  constructor
  · intro kv hkv
    have hmem : kv ∈ ((sortPassages ps).filter keepPassage).map (fun p => (p.full_name, p)) :=
      mem_odOfList hkv
    obtain ⟨p, hp, hkvp⟩ := List.mem_map.mp hmem
    have hkeep : keepPassage p = true := (List.mem_filter.mp hp).2
    have hval : kv.2 = p := by rw [← hkvp]
    unfold keepPassage at hkeep
    simp only [Bool.not_eq_true', Bool.or_eq_false_iff, Bool.not_eq_false] at hkeep
    obtain ⟨hspec, hempty⟩ := hkeep
    rw [hval]
    constructor
    · intro hname
      unfold Passage.is_special_passage at hspec
      rw [hname] at hspec
      have : SPECIAL_PASSAGES.contains "Start" = true := by decide
      rw [this] at hspec
      exact Bool.true_eq_false.mp hspec
    · intro htag
      have hmem2 : "script" ∈ p.special_tags :=
        List.mem_filter.mpr ⟨htag, by decide⟩
      have hempty2 : p.special_tags.isEmpty = true := by simpa using hempty
      rw [List.isEmpty_iff] at hempty2
      rw [hempty2] at hmem2
      exact List.not_mem_nil _ hmem2
  · intro p hp hname htags
    have hkeep : keepPassage p = true := by
      unfold keepPassage Passage.is_special_passage
      rw [hname, htags]
      decide
    have hsort : p ∈ sortPassages ps := (sortPassages_perm ps).mem_iff.mpr hp
    have hfilt : p ∈ (sortPassages ps).filter keepPassage :=
      List.mem_filter.mpr ⟨hsort, hkeep⟩
    have hfull : p.full_name = "stella.StoryTitle" := by
      unfold Passage.full_name Passage.project_passage
      rw [hname]
      have : PROJECT_PASSAGES.contains "StoryTitle" = true := by decide
      rw [this]
      simp [PROJECT_PASSAGES_MODULE, NAME_PATH_DELIMITER]
    exact odOfList_hasKey ⟨(p.full_name, p),
      List.mem_map.mpr ⟨p, hfilt, rfl⟩, hfull⟩

/-- Witness for C3 at a concrete input with both a `Start` and a
`StoryTitle` passage. -/
theorem c3_witness :
    (odLookup (filter_passages [demoPassage "Start", demoPassage "StoryTitle"])
      "stella.StoryTitle").isSome = true :=
  (c3_amended [demoPassage "Start", demoPassage "StoryTitle"]).2
    (demoPassage "StoryTitle") (by decide) rfl rfl

/-! ## Order lemmas for the natural-key comparison -/

/-- Nothing is below the empty string. -/
theorem strLt_nil_right (c : List Char) : strLt c [] = false := by
  cases c <;> rfl

/-- Asymmetry of the string comparison. -/
theorem strLt_asymm : ∀ (a b : List Char), strLt a b = true → strLt b a = false := by
  intro a
  induction a with
  | nil => intro b _; exact strLt_nil_right b
  | cons a0 as ih =>
    intro b h
    cases b with
    | nil => simp [strLt] at h
    | cons b0 bs =>
      simp only [strLt] at h ⊢
      by_cases hab : a0.toNat < b0.toNat
      · have hba : ¬ b0.toNat < a0.toNat := by omega
        rw [if_neg hba, if_pos hab]
      · rw [if_neg hab] at h
        by_cases hba : b0.toNat < a0.toNat
        · rw [if_pos hba] at h
          exact absurd h (by simp)
        · rw [if_neg hba] at h
          rw [if_neg hba, if_neg hab]
          exact ih bs h

/-- Transitivity of the negated string comparison (the "less or equal"
direction). -/
theorem strLt_neg_trans : ∀ (a b c : List Char),
    strLt b a = false → strLt c b = false → strLt c a = false := by
  intro a
  induction a with
  | nil => intro b c _ _; exact strLt_nil_right c
  | cons a0 as ih =>
    intro b c h1 h2
    cases b with
    | nil => simp [strLt] at h1
    | cons b0 bs =>
      cases c with
      | nil => simp [strLt] at h2
      | cons c0 cs =>
        simp only [strLt] at h1 h2 ⊢
        by_cases hba : b0.toNat < a0.toNat
        · simp [hba] at h1
        · by_cases hcb : c0.toNat < b0.toNat
          · simp [hcb] at h2
          · have hca : ¬ c0.toNat < a0.toNat := by omega
            rw [if_neg hba] at h1
            rw [if_neg hcb] at h2
            rw [if_neg hca]
            by_cases hac : a0.toNat < c0.toNat
            · rw [if_pos hac]
            · rw [if_neg hac]
              have hab : ¬ a0.toNat < b0.toNat := by omega
              have hbc : ¬ b0.toNat < c0.toNat := by omega
              rw [if_neg hab] at h1
              rw [if_neg hbc] at h2
              exact ih bs cs h1 h2

/-- Asymmetry of the key-part comparison. -/
theorem keyPartLt_asymm (a b : NatKeyPart) (h : keyPartLt a b = true) :
    keyPartLt b a = false := by
  cases a with
  | inl m =>
    cases b with
    | inl n =>
      simp only [keyPartLt] at h ⊢
      simp only [decide_eq_true_eq] at h
      simp
      omega
    | inr t => rfl
  | inr s =>
    cases b with
    | inl n => simp [keyPartLt] at h
    | inr t => exact strLt_asymm s.data t.data h

/-- Transitivity of the negated key-part comparison. -/
theorem keyPartLt_neg_trans (a b c : NatKeyPart)
    (h1 : keyPartLt b a = false) (h2 : keyPartLt c b = false) :
    keyPartLt c a = false := by
  cases a with
  | inl m =>
    cases b with
    | inl n =>
      cases c with
      | inl p =>
        simp only [keyPartLt, decide_eq_false_iff_not] at h1 h2 ⊢
        omega
      | inr u => rfl
    | inr t =>
      cases c with
      | inl p => simp [keyPartLt] at h2
      | inr u => rfl
  | inr s =>
    cases b with
    | inl n => simp [keyPartLt] at h1
    | inr t =>
      cases c with
      | inl p => simp [keyPartLt] at h2
      | inr u => exact strLt_neg_trans s.data t.data u.data h1 h2

/-- Asymmetry of the key-list comparison. -/
theorem keysLt_asymm : ∀ (a b : List NatKeyPart), keysLt a b = true → keysLt b a = false := by
  intro a
  induction a with
  | nil =>
    intro b h
    cases b with
    | nil => simp [keysLt] at h
    | cons b0 bs => rfl
  | cons a0 as ih =>
    intro b h
    cases b with
    | nil => simp [keysLt] at h
    | cons b0 bs =>
      simp only [keysLt] at h ⊢
      by_cases hab : keyPartLt a0 b0 = true
      · have hba : keyPartLt b0 a0 = false := keyPartLt_asymm _ _ hab
        rw [hba, hab]
        simp
      · rw [Bool.not_eq_true] at hab
        rw [hab] at h
        simp only [Bool.false_eq_true, if_false] at h
        by_cases hba : keyPartLt b0 a0 = true
        · rw [hba] at h
          exact absurd h (by simp)
        · rw [Bool.not_eq_true] at hba
          rw [hba] at h
          simp only [Bool.false_eq_true, if_false] at h
          rw [hba, hab]
          simp only [Bool.false_eq_true, if_false]
          exact ih bs h

/-- From `b` not below `a` and `b` below `c`, `a` is below `c`
(le-lt transitivity of the string comparison). -/
theorem strLt_lt_of_nlt_of_lt : ∀ (c a b : List Char),
    strLt b a = false → strLt b c = true → strLt a c = true := by
  intro c
  induction c with
  | nil =>
    intro a b _ h2
    rw [strLt_nil_right] at h2
    exact absurd h2 (by simp)
  | cons c0 cs ih =>
    intro a b h1 h2
    cases b with
    | nil =>
      cases a with
      | nil => rfl
      | cons a0 as => simp [strLt] at h1
    | cons b0 bs =>
      cases a with
      | nil => rfl
      | cons a0 as =>
        simp only [strLt] at h1 h2 ⊢
        by_cases hba : b0.toNat < a0.toNat
        · simp [hba] at h1
        · rw [if_neg hba] at h1
          by_cases hbc : b0.toNat < c0.toNat
          · have hacn : a0.toNat < c0.toNat := by omega
            rw [if_pos hacn]
          · rw [if_neg hbc] at h2
            by_cases hcb : c0.toNat < b0.toNat
            · simp [hcb] at h2
            · rw [if_neg hcb] at h2
              by_cases hab : a0.toNat < b0.toNat
              · have hacn : a0.toNat < c0.toNat := by omega
                rw [if_pos hacn]
              · rw [if_neg hab] at h1
                have hacn : ¬ a0.toNat < c0.toNat := by omega
                have hcan : ¬ c0.toNat < a0.toNat := by omega
                rw [if_neg hacn, if_neg hcan]
                exact ih as bs h1 h2

/-- Le-lt transitivity of the key-part comparison. -/
theorem keyPartLt_lt_of_nlt_of_lt (a b c : NatKeyPart)
    (h1 : keyPartLt b a = false) (h2 : keyPartLt b c = true) :
    keyPartLt a c = true := by
  cases b with
  | inl n =>
    cases a with
    | inl m =>
      cases c with
      | inl p =>
        simp only [keyPartLt, decide_eq_false_iff_not, decide_eq_true_eq] at h1 h2 ⊢
        omega
      | inr u => rfl
    | inr s => simp [keyPartLt] at h1
  | inr t =>
    cases c with
    | inl p => simp [keyPartLt] at h2
    | inr u =>
      cases a with
      | inl m => rfl
      | inr s => exact strLt_lt_of_nlt_of_lt u.data s.data t.data h1 h2

/-- Transitivity of the negated key-list comparison. -/
theorem keysLt_neg_trans : ∀ (a b c : List NatKeyPart),
    keysLt b a = false → keysLt c b = false → keysLt c a = false := by
  intro a
  induction a with
  | nil =>
    intro b c _ _
    cases c with
    | nil => rfl
    | cons c0 cs =>
      cases b with
      | nil => simp [keysLt] at *
      | cons b0 bs => simp [keysLt] at *
  | cons a0 as ih =>
    intro b c h1 h2
    cases b with
    | nil => simp [keysLt] at h1
    | cons b0 bs =>
      cases c with
      | nil => simp [keysLt] at h2
      | cons c0 cs =>
        simp only [keysLt] at h1 h2 ⊢
        by_cases hba : keyPartLt b0 a0 = true
        · simp [hba] at h1
        · rw [Bool.not_eq_true] at hba
          rw [hba] at h1
          simp only [Bool.false_eq_true, if_false] at h1
          by_cases hcb : keyPartLt c0 b0 = true
          · simp [hcb] at h2
          · rw [Bool.not_eq_true] at hcb
            rw [hcb] at h2
            simp only [Bool.false_eq_true, if_false] at h2
            have hca : keyPartLt c0 a0 = false := keyPartLt_neg_trans a0 b0 c0 hba hcb
            rw [hca]
            simp only [Bool.false_eq_true, if_false]
            by_cases hac : keyPartLt a0 c0 = true
            · rw [hac]
              simp
            · rw [Bool.not_eq_true] at hac
              rw [hac]
              simp only [Bool.false_eq_true, if_false]
              by_cases hab : keyPartLt a0 b0 = true
              · have hlt : keyPartLt c0 b0 = true :=
                  keyPartLt_lt_of_nlt_of_lt c0 a0 b0 hac hab
                rw [hcb] at hlt
                exact absurd hlt (by simp)
              · rw [Bool.not_eq_true] at hab
                rw [hab] at h1
                simp only [Bool.false_eq_true, if_false] at h1
                by_cases hbc : keyPartLt b0 c0 = true
                · have hlt : keyPartLt a0 c0 = true :=
                    keyPartLt_lt_of_nlt_of_lt a0 b0 c0 hba hbc
                  rw [hac] at hlt
                  exact absurd hlt (by simp)
                · rw [Bool.not_eq_true] at hbc
                  rw [hbc] at h2
                  simp only [Bool.false_eq_true, if_false] at h2
                  exact ih bs cs h1 h2

/-- The passage order used below: `a` precedes `b` when `b` does not
compare strictly below `a` by natural keys. -/
def passageLe (a b : Passage) : Prop :=
  keysLt (natural_keys b) (natural_keys a) = false

/-- Stable insertion preserves sortedness. -/
theorem pairwise_insertSorted (x : Passage) (l : List Passage)
    (h : l.Pairwise passageLe) : (insertSorted x l).Pairwise passageLe := by
  induction l with
  | nil => simp [insertSorted, List.pairwise_singleton]
  | cons y ys ih =>
    rcases List.pairwise_cons.mp h with ⟨hy, hys⟩
    by_cases hc : keysLt (natural_keys y) (natural_keys x) = true
    · simp only [insertSorted, if_pos hc]
      refine List.pairwise_cons.mpr ⟨?_, ih hys⟩
      intro z hz
      rcases mem_insertSorted.mp hz with hz1 | hz1
      · subst hz1
        exact keysLt_asymm _ _ hc
      · exact hy z hz1
    · simp only [insertSorted, if_neg hc]
      rw [Bool.not_eq_true] at hc
      refine List.pairwise_cons.mpr ⟨?_, h⟩
      intro z hz
      rcases List.mem_cons.mp hz with hz1 | hz1
      · subst hz1
        exact hc
      · exact keysLt_neg_trans _ _ _ hc (hy z hz1)

/-- The stable sort produces a list sorted by natural keys. -/
theorem sortPassages_pairwise (ps : List Passage) :
    (sortPassages ps).Pairwise passageLe := by
  induction ps with
  | nil => simp [sortPassages]
  | cons x xs ih => exact pairwise_insertSorted x (sortPassages xs) ih

/-- Building an ordered dict from pairs with distinct keys keeps the pair
list unchanged. -/
theorem odOfList_nodup (l : List (String × Passage))
    (h : (l.map Prod.fst).Nodup) : odOfList l = l := by
  suffices hgen : ∀ (l m : List (String × Passage)),
      (l.map Prod.fst).Nodup →
      (∀ kv ∈ m, ∀ kv' ∈ l, kv.1 ≠ kv'.1) →
      l.foldl (fun m kv => odInsert m kv.1 kv.2) m = m ++ l by
    simpa using hgen l [] h (by simp)
  intro l
  induction l with
  | nil => intro m _ _; simp
  | cons x xs ih =>
    intro m hnd hdisj
    have hx : m.any (fun kv => kv.1 = x.1) = false := by
      rw [List.any_eq_false]
      intro kv hkv
      simpa using hdisj kv hkv x (List.mem_cons_self x xs)
    show xs.foldl (fun m kv => odInsert m kv.1 kv.2) (odInsert m x.1 x.2) = m ++ x :: xs
    have hstep : odInsert m x.1 x.2 = m ++ [(x.1, x.2)] := by
      unfold odInsert
      rw [hx]
      simp
    rw [hstep]
    have hnd' : x.1 ∉ (xs.map Prod.fst) ∧ (xs.map Prod.fst).Nodup := by
      rw [List.map_cons] at hnd
      exact List.nodup_cons.mp hnd
    rw [ih (m ++ [(x.1, x.2)]) hnd'.2 ?_]
    · simp
    · intro kv hkv kv' hkv'
      rcases List.mem_append.mp hkv with h1 | h1
      · exact hdisj kv h1 kv' (List.mem_cons_of_mem x hkv')
      · have hkx : kv = (x.1, x.2) := List.mem_singleton.mp h1
        subst hkx
        intro hcontra
        exact hnd'.1 (List.mem_map.mpr ⟨kv', hkv', hcontra.symm⟩)

/-! ## Claim C5 -/

/-- Claim-side comparator: natural sort keys over the passage's name alone
(not over the `repr` of the whole passage object). -/
def natural_keys_of_name (p : Passage) : List NatKeyPart :=
  reSplitND [] p.name.data

/-- Claim-side stable insertion by name-only natural keys. -/
def insertSortedByName (x : Passage) : List Passage → List Passage
  | [] => [x]
  | y :: ys =>
    if keysLt (natural_keys_of_name y) (natural_keys_of_name x) then y :: insertSortedByName x ys
    else x :: y :: ys

/-- Claim-side stable sort by name-only natural keys. -/
def sortPassagesByName : List Passage → List Passage
  | [] => []
  | x :: xs => insertSortedByName x (sortPassagesByName xs)

/-- C5 counterexample: for the passages named `a1` and `a1 ` (trailing
space), sorting by natural keys of the name alone puts `a1` first, but the
filter (which sorts by natural keys of `repr(passage)`, where the closing
parenthesis follows the name) puts `a1 ` first. -/
theorem c5_counterexample :
    (filter_passages [demoPassage "a1", demoPassage "a1 "]).map (fun kv => kv.2.name) =
      ["a1 ", "a1"]
  ∧ (sortPassagesByName [demoPassage "a1", demoPassage "a1 "]).map Passage.name =
      ["a1", "a1 "] := by
  decide

/-- C5 amended: the filter orders passages by a natural-order comparator
over each passage's `repr` (`Passage(<name>...)`, which embeds the name),
not over the name alone: when the surviving full names are distinct, the
output values are exactly the kept passages of the stable
natural-keys-of-repr sort, and they are pairwise sorted by those keys; in
particular, tag-free and geometry-free passages named `p2`, `p10`, `p1`
come out in the order `p1`, `p2`, `p10`. -/
theorem c5_amended :
    (∀ ps : List Passage,
        (((sortPassages ps).filter keepPassage).map Passage.full_name).Nodup →
          (filter_passages ps).map (fun kv => kv.2) = (sortPassages ps).filter keepPassage
          ∧ ((filter_passages ps).map (fun kv => kv.2)).Pairwise passageLe)
  ∧ (filter_passages [demoPassage "p2", demoPassage "p10", demoPassage "p1"]).map
        (fun kv => kv.2.name) = ["p1", "p2", "p10"] := by
  constructor
  · intro ps hnd
    have hkeys : ((((sortPassages ps).filter keepPassage).map
        (fun p => (p.full_name, p))).map Prod.fst).Nodup := by
      rw [List.map_map]
      simpa [Function.comp] using hnd
    have hid : filter_passages ps =
        ((sortPassages ps).filter keepPassage).map (fun p => (p.full_name, p)) :=
      odOfList_nodup _ hkeys
    have hval : (filter_passages ps).map (fun kv => kv.2) =
        (sortPassages ps).filter keepPassage := by
      rw [hid, List.map_map]
      have hcomp : ((fun kv : String × Passage => kv.2) ∘ (fun p : Passage => (p.full_name, p))) = id := rfl
      rw [hcomp, List.map_id]
    refine ⟨hval, ?_⟩
    rw [hval]
    exact List.Pairwise.filter keepPassage (sortPassages_pairwise ps)
  · decide

/-- Witness for C5 on a concrete passage list with distinct keys. -/
theorem c5_witness :
    (filter_passages [demoPassage "b", demoPassage "a"]).map (fun kv => kv.2) =
      (sortPassages [demoPassage "b", demoPassage "a"]).filter keepPassage :=
  ((c5_amended.1 [demoPassage "b", demoPassage "a"]) (by decide)).1

/-! ## Claim C7 -/

/-- Claim-side rendering of a passage file, following the claim's words:
per stored passage, its header line, the joined content lines, and one
trailing blank line (an extra empty line) between consecutive passages and
at end of file. -/
def write_passages_content_claim (d : Nat) (t : ProjectNode) : String :=
  concatStrings ((t.passagesOf d).map
    (fun p => p.passage_header ++ "\n" ++ p.combined_content ++ "\n\n"))

/-- A single-passage file node used to refute the blank-line clause. -/
def c7node : ProjectNode :=
  ProjectNode.mk (some { name := "N", tags := [], geometry := [], content := ["x"] }) []

/-- C7 counterexample: the written file for a node holding one passage with
content line `x` is `::N\nx\n` — a single terminating newline, not a
trailing blank line as the claim predicts. -/
theorem c7_counterexample :
    write_passages_content 3 c7node = "::N\nx\n"
  ∧ write_passages_content 3 c7node ≠ write_passages_content_claim 3 c7node := by
  decide

/-- C7 amended: every written passage-content file consists of, per stored
passage, its header line (bracket and angle groups omitted when
tags/geometry are empty) followed by its joined content lines, with one
terminating newline character appended after each passage (separating
consecutive passages and ending the file) — not a blank line. -/
theorem c7_amended (d : Nat) (t : ProjectNode) :
    write_passages_content d t =
      concatStrings ((t.passagesOf d).map
        (fun p => p.passage_header ++ "\n" ++ (p.combined_content ++ "\n"))) := by
  unfold write_passages_content
  have h : (fun p : Passage => p.str ++ "\n") =
      (fun p : Passage => p.passage_header ++ "\n" ++ (p.combined_content ++ "\n")) := by
    funext p
    simp [Passage.str, String.append_assoc]
  rw [h]

/-! ## Claim C10 -/

/-- In a children list with distinct keys, the key of a member entry that
satisfies a predicate occurs exactly once among the names of the filtered
children. -/
theorem count_key_filter (pred : String × ProjectNode → Bool)
    (children : List (String × ProjectNode)) (k : String) (C : ProjectNode)
    (hmem : (k, C) ∈ children) (hnd : (children.map Prod.fst).Nodup)
    (hpred : pred (k, C) = true) :
    ((children.filter pred).map Prod.fst).count k = 1 := by
  induction children with
  | nil => exact absurd hmem (List.not_mem_nil _)
  | cons kc rest ih =>
    rw [List.map_cons] at hnd
    have hnd' := List.nodup_cons.mp hnd
    rcases List.mem_cons.mp hmem with hhead | htail
    · subst hhead
      rw [List.filter_cons, hpred]
      simp only [if_pos]
      rw [List.map_cons, List.count_cons_self]
      have hnot : k ∉ (rest.filter pred).map Prod.fst := by
        intro hk
        obtain ⟨kc', hkc', hfst⟩ := List.mem_map.mp hk
        exact hnd'.1 (List.mem_map.mpr ⟨kc', (List.mem_filter.mp hkc').1, hfst⟩)
      rw [List.count_eq_zero_of_not_mem hnot]
    · have hne : kc.1 ≠ k := by
        intro hk
        apply hnd'.1
        rw [hk]
        exact List.mem_map.mpr ⟨(k, C), htail, rfl⟩
      rw [List.filter_cons]
      by_cases hp : pred kc = true
      · rw [hp]
        simp only [if_pos]
        rw [List.map_cons, List.count_cons_of_ne (fun h => hne h.symm)]
        exact ih htail hnd'.2
      · rw [Bool.not_eq_true] at hp
        rw [hp]
        simp only [Bool.false_eq_true, if_false]
        exact ih htail hnd'.2

/-- Actions of a module/submodule child are actions of the children loop. -/
theorem mem_reconstructChildren (d : Nat) (parent : ProjectNode)
    (cs : List (String × ProjectNode)) (root k : String) (C : ProjectNode)
    (hmem : (k, C) ∈ cs) (hdir : (is_module d || C.is_submodule d) = true)
    (a : FsAction)
    (ha : a ∈ ProjectNode.reconstruct d k parent C (pathJoin root k) ∨
          a ∈ (if C.is_submodule d && is_file d parent C then
                 [FsAction.write (pathJoin root (k ++ ".tw2")) (write_passages_content d C)]
               else [])) :
    a ∈ reconstructChildren d parent cs root := by
  induction cs with
  | nil => exact absurd hmem (List.not_mem_nil _)
  | cons kc rest ih =>
    obtain ⟨k1, c1⟩ := kc
    rcases List.mem_cons.mp hmem with hhead | htail
    · rw [Prod.mk.injEq] at hhead
      obtain ⟨hk1, hc1⟩ := hhead
      subst hk1
      subst hc1
      simp only [reconstructChildren]
      rw [if_pos hdir]
      apply List.mem_append_left
      rcases ha with h1 | h1
      · exact List.mem_append_left _ h1
      · exact List.mem_append_right _ h1
    · simp only [reconstructChildren]
      exact List.mem_append_right _ (ih htail)

/-- C10: a depth-2 child that is both a submodule and a file is listed once
among its parent module's directories (and so appears with a trailing `/`
in the includes manifest) and once among its files; and reconstruction of
the parent module both creates the child's subdirectory and writes the
child's content file in the parent's output directory. -/
theorem c10_submodule_file_child (root frag k : String) (P M C : ProjectNode)
    (hmem : (k, C) ∈ M.children)
    (hnd : (M.children.map Prod.fst).Nodup)
    (hsub : C.is_submodule 2 = true)
    (hpass : C.passage.isSome = true) :
    (M.directories 1).count k = 1
  ∧ (M.files 1).count k = 1
  ∧ FsAction.mkdir (pathJoin root k) ∈ ProjectNode.reconstruct 1 frag P M root
  ∧ FsAction.write (pathJoin root (k ++ ".tw2")) (write_passages_content 2 C)
      ∈ ProjectNode.reconstruct 1 frag P M root := by
  obtain ⟨p, cs⟩ := M
  have hcs : (ProjectNode.mk p cs).children = cs := rfl
  rw [hcs] at hmem hnd
  have hfile : is_file 2 (ProjectNode.mk p cs) C = true := by
    unfold is_file
    simp only [ProjectNode.is_submodule, is_module]
    rw [hpass]
    simp
  have hdir2 : (is_module 2 || C.is_submodule 2) = true := by
    rw [hsub]
    simp
  have hdirpred : (fun kc : String × ProjectNode =>
      is_module (1 + 1) || kc.2.is_submodule (1 + 1)) (k, C) = true := hdir2
  have hfilepred : (fun kc : String × ProjectNode =>
      is_file (1 + 1) (ProjectNode.mk p cs) kc.2) (k, C) = true := hfile
  have hmain : ∀ a : FsAction,
      (a ∈ ProjectNode.reconstruct 2 k (ProjectNode.mk p cs) C (pathJoin root k) ∨
       a ∈ (if C.is_submodule 2 && is_file 2 (ProjectNode.mk p cs) C then
              [FsAction.write (pathJoin root (k ++ ".tw2")) (write_passages_content 2 C)]
            else [])) →
      a ∈ ProjectNode.reconstruct 1 frag P (ProjectNode.mk p cs) root := by
    intro a ha
    rw [ProjectNode.reconstruct]
    simp only [List.append_assoc, List.mem_append]
    right
    right
    exact mem_reconstructChildren (1 + 1) (ProjectNode.mk p cs) cs root k C hmem hdir2 a ha
  refine ⟨?_, ?_, ?_, ?_⟩
  · exact count_key_filter _ cs k C hmem hnd hdirpred
  · exact count_key_filter _ cs k C hmem hnd hfilepred
  · apply hmain
    left
    have hinc : has_includes 2 C = true := by
      unfold has_includes
      rw [hsub]
      simp
    obtain ⟨cp, ccs⟩ := C
    rw [ProjectNode.reconstruct]
    rw [if_pos hinc]
    apply List.mem_append_left
    exact List.mem_cons_self _ _
  · apply hmain
    right
    have hcond : (C.is_submodule 2 && is_file 2 (ProjectNode.mk p cs) C) = true := by
      rw [hsub, hfile]
      rfl
    rw [if_pos hcond]
    exact List.mem_cons_self _ _

/-- A concrete submodule-and-file child: it carries its own passage and a
chain of descendants of height 3. -/
def c10C : ProjectNode :=
  ProjectNode.mk (some (demoPassage "m.s"))
    [("a", ProjectNode.mk none
      [("b", ProjectNode.mk none
        [("c", ProjectNode.mk (some (demoPassage "m.s.a.b.c")) [])])])]

/-- A concrete module holding `c10C` under the key `s`. -/
def c10M : ProjectNode := ProjectNode.mk none [("s", c10C)]

/-- Witness for C10 at the concrete module `c10M`. -/
theorem c10_witness :
    (c10M.directories 1).count "s" = 1
  ∧ (c10M.files 1).count "s" = 1
  ∧ FsAction.mkdir (pathJoin "R" "s") ∈
      ProjectNode.reconstruct 1 "m" (ProjectNode.mk none []) c10M "R"
  ∧ FsAction.write (pathJoin "R" ("s" ++ ".tw2")) (write_passages_content 2 c10C) ∈
      ProjectNode.reconstruct 1 "m" (ProjectNode.mk none []) c10M "R" :=
  c10_submodule_file_child "R" "m" "s" (ProjectNode.mk none []) c10M c10C
    (List.mem_cons_self _ _) (by decide) (by decide) (by decide)

/-! ## Claim C8 -/

/-- Dropping a prefix does not lengthen a list. -/
theorem length_dropWhile_le (p : String → Bool) (l : List String) :
    (l.dropWhile p).length ≤ l.length := by
  induction l with
  | nil => simp
  | cons x xs ih =>
    rw [List.dropWhile_cons]
    by_cases hx : p x = true
    · rw [hx]
      simp only [if_pos]
      exact Nat.le_succ_of_le ih
    · rw [Bool.not_eq_true] at hx
      rw [hx]
      simp

/-- The passage built from a header line starts with empty content. -/
theorem passageOfHeaderLine_content (l : String) : (passageOfHeaderLine l).content = [] := by
  unfold passageOfHeaderLine
  rcases parse_passage_header l with ⟨nm, tg, gm⟩
  rfl

/-- Claim-side description of assembly: the input is cut at header lines;
each header opens a chunk holding the run of non-header lines that follows
it (up to the next header or the end of input). -/
def chunksOf : List String → List (String × List String)
  | [] => []
  | l :: ls =>
    if isHeaderLine l then
      (l, ls.takeWhile (fun x => ! isHeaderLine x)) ::
        chunksOf (ls.dropWhile (fun x => ! isHeaderLine x))
    else chunksOf ls
termination_by ls => ls.length
decreasing_by
  · exact Nat.lt_succ_of_le (length_dropWhile_le _ _)
  · exact Nat.lt_succ_self _

/-- Once a passage is open, the assembler can no longer fail: it produces
the accumulated passages, the current passage extended with the following
run of content lines, and the chunks of the remaining input. -/
theorem parse_lines_go_some (ls : List String) : ∀ (p : Passage) (acc : List Passage),
    parse_lines_go (some p) acc ls =
      Except.ok (acc ++
        [{ p with content := p.content ++ ls.takeWhile (fun x => ! isHeaderLine x) }] ++
        (chunksOf (ls.dropWhile (fun x => ! isHeaderLine x))).map
          (fun c => { passageOfHeaderLine c.1 with content := c.2 })) := by
  induction ls with
  | nil =>
    intro p acc
    show Except.ok (acc ++ [p]) = _
    simp [chunksOf]
  | cons l ls ih =>
    intro p acc
    by_cases hl : isHeaderLine l = true
    · show (if isHeaderLine l then parse_lines_go (some (passageOfHeaderLine l))
          (acc ++ [p]) ls else _) = _
      rw [hl]
      simp only [if_pos]
      rw [ih]
      rw [List.takeWhile_cons, List.dropWhile_cons]
      simp only [hl, Bool.not_true, Bool.false_eq_true, if_false]
      rw [chunksOf, if_pos hl]
      simp [passageOfHeaderLine_content]
    · rw [Bool.not_eq_true] at hl
      show (if isHeaderLine l = true then _
          else parse_lines_go (some { p with content := p.content ++ [l] }) acc ls) = _
      rw [hl]
      simp only [Bool.false_eq_true, if_false]
      rw [ih]
      rw [List.takeWhile_cons, List.dropWhile_cons]
      simp [hl]

/-- C8: the assembler fails with an error exactly when a non-header line
occurs with no header opened before it; otherwise, from a leading header,
it emits one passage per header in encounter order, each holding verbatim
the non-header lines that follow its header. -/
theorem c8_parse_lines_spec (lines : List String) :
    ((∃ e, parse_lines lines = Except.error e) ↔
        ∃ pre l post, lines = pre ++ l :: post ∧
          (∀ x ∈ pre, isHeaderLine x = false) ∧ isHeaderLine l = false)
  ∧ (∀ l ls, lines = l :: ls → isHeaderLine l = true →
        parse_lines lines = Except.ok ((chunksOf lines).map
          (fun c => { passageOfHeaderLine c.1 with content := c.2 })))
  ∧ (lines = [] → parse_lines lines = Except.ok []) := by
  refine ⟨?_, ?_, ?_⟩
  · constructor
    · rintro ⟨e, he⟩
      cases lines with
      | nil => simp [parse_lines, parse_lines_go] at he
      | cons l ls =>
        by_cases hl : isHeaderLine l = true
        · exfalso
          unfold parse_lines parse_lines_go at he
          rw [hl] at he
          simp only [if_pos] at he
          rw [parse_lines_go_some] at he
          exact absurd he (by simp)
        · rw [Bool.not_eq_true] at hl
          exact ⟨[], l, ls, rfl, by simp, hl⟩
    · rintro ⟨pre, l, post, hsplit, hpre, hl⟩
      have hhead : ∃ l0 ls0, lines = l0 :: ls0 ∧ isHeaderLine l0 = false := by
        cases pre with
        | nil => exact ⟨l, post, hsplit, hl⟩
        | cons x xs =>
          refine ⟨x, xs ++ l :: post, by simpa using hsplit, ?_⟩
          exact hpre x (List.mem_cons_self _ _)
      obtain ⟨l0, ls0, hsplit0, hl0⟩ := hhead
      subst hsplit0
      refine ⟨l0, ?_⟩
      unfold parse_lines parse_lines_go
      rw [hl0]
      rfl
  · intro l ls heq hl
    subst heq
    unfold parse_lines parse_lines_go
    rw [hl]
    simp only [if_pos]
    rw [parse_lines_go_some]
    rw [chunksOf, if_pos hl]
    simp [passageOfHeaderLine]
  · intro h
    subst h
    rfl

/-- Witness for C8 on a concrete two-line input with a leading header. -/
theorem c8_witness :
    parse_lines ["::A", "x"] = Except.ok ((chunksOf ["::A", "x"]).map
      (fun c => { passageOfHeaderLine c.1 with content := c.2 })) :=
  (c8_parse_lines_spec ["::A", "x"]).2.1 "::A" ["x"] rfl (by decide)

/-! ## Claim C6 -/

/-- Recomposition: when a delimiter is present, the fragment, the
delimiter and the remainder reassemble the input. -/
theorem splitNameAux_recompose (l : List Char) (h : (splitNameAux l).2 ≠ []) :
    (splitNameAux l).1 ++ '.' :: (splitNameAux l).2 = l := by
  induction l with
  | nil => simp [splitNameAux] at h
  | cons c cs ih =>
    by_cases hc : c = '.'
    · subst hc
      simp [splitNameAux]
    · simp only [splitNameAux, if_neg hc] at h ⊢
      rw [List.cons_append]
      rw [ih h]

/-- String-level recomposition for `split_name`. -/
theorem split_name_recompose (s : String) (h : (split_name s).2 ≠ "") :
    (split_name s).1 ++ "." ++ (split_name s).2 = s := by
  have hne : (splitNameAux s.data).2 ≠ [] := by
    intro hnil
    apply h
    show String.mk (splitNameAux s.data).2 = ""
    rw [hnil]
  apply String.ext
  show ((String.mk (splitNameAux s.data).1 ++ "." ++ String.mk (splitNameAux s.data).2)).data = s.data
  rw [String.data_append, String.data_append]
  show (splitNameAux s.data).1 ++ ['.'] ++ (splitNameAux s.data).2 = s.data
  rw [List.append_assoc]
  exact splitNameAux_recompose s.data hne

/-- A path of segments is never empty. -/
theorem pathSegs_ne_nil (s : String) : pathSegs s ≠ [] := by
  rw [pathSegs_eq]
  by_cases h : (split_name s).2 = "" <;> simp [h]

/-- Left inverse of `pathSegs`: joining the segments with the delimiter
(treating a single segment as verbatim) recovers the name. -/
def unsplitSegs : List String → String
  | [] => ""
  | [s] => s
  | s :: t :: rest => s ++ "." ++ unsplitSegs (t :: rest)

/-- The segments of a name reassemble the name. -/
theorem unsplitSegs_pathSegs (s : String) : unsplitSegs (pathSegs s) = s := by
  suffices h : ∀ (n : Nat) (s : String), s.length ≤ n → unsplitSegs (pathSegs s) = s from
    h s.length s (Nat.le_refl _)
  intro n
  induction n with
  | zero =>
    intro s hlen
    have hname : s = "" := by
      have : s.data = [] := List.length_eq_zero.mp (Nat.le_zero.mp hlen)
      apply String.ext
      simp [this]
    subst hname
    decide
  | succ n ih =>
    intro s hlen
    rw [pathSegs_eq]
    by_cases h : (split_name s).2 = ""
    · simp [h, unsplitSegs]
    · simp only [h]
      simp only [Bool.false_eq_true, if_false]
      cases hl : pathSegs (split_name s).2 with
      | nil => exact absurd hl (pathSegs_ne_nil _)
      | cons a rest =>
        show unsplitSegs ((split_name s).1 :: a :: rest) = s
        rw [unsplitSegs]
        rw [← hl]
        have hlt := split_name_snd_lt s h
        rw [ih (split_name s).2 (by omega)]
        exact split_name_recompose s h

/-- Distinct names descend along distinct paths. -/
theorem pathSegs_injective {a b : String} (h : pathSegs a = pathSegs b) : a = b := by
  rw [← unsplitSegs_pathSegs a, ← unsplitSegs_pathSegs b, h]

/-- Adding a child never changes the node's own passage. -/
theorem add_child_passage (t : ProjectNode) (k : String) :
    (t.add_child k).passage = t.passage := by
  unfold ProjectNode.add_child
  by_cases h : t.children.any (fun kv => kv.1 = k) = true
  · rw [if_pos h]
  · rw [if_neg h]
    rfl

/-- Modifying a child never changes the node's own passage. -/
theorem mapChild_passage (t : ProjectNode) (k : String) (f : ProjectNode → ProjectNode) :
    (mapChild t k f).passage = t.passage := rfl

/-- Attaching a passage never changes the node's own passage. -/
theorem add_passage_passage (t : ProjectNode) (p : Passage) (name : String) :
    (t.add_passage p name).passage = t.passage := by
  rw [ProjectNode.add_passage_eq]
  by_cases h : (split_name name).2 = ""
  · simp only [h]
    simp only [if_pos]
    rw [mapChild_passage, add_child_passage]
  · simp only [h]
    simp only [Bool.false_eq_true, if_false]
    rw [mapChild_passage, add_child_passage]

/-- One-step unfolding of `lookupPath` on a nonempty path. -/
theorem lookupPath_cons (t : ProjectNode) (s : String) (rest : List String) :
    lookupPath t (s :: rest) =
      match t.children.find? (fun kv => kv.1 = s) with
      | none => none
      | some kv => lookupPath kv.2 rest := rfl

/-- Lookup of a child with another key is unaffected by `mapChild`. -/
theorem find?_mapChild_ne (t : ProjectNode) (k : String) (f : ProjectNode → ProjectNode)
    (s : String) (hs : s ≠ k) :
    (mapChild t k f).children.find? (fun kv => kv.1 = s) =
      t.children.find? (fun kv => kv.1 = s) := by
  show (t.children.map _).find? _ = _
  induction t.children with
  | nil => rfl
  | cons kc rest ih =>
    rw [List.map_cons, List.find?_cons, List.find?_cons]
    by_cases hk : kc.1 = k
    · rw [if_pos hk]
      have h0 : (decide (kc.1 = s)) = false := by
        simp only [decide_eq_false_iff_not]
        intro hcontra
        exact hs (hcontra ▸ hk)
      rw [h0]
      exact ih
    · rw [if_neg hk]
      by_cases hp : kc.1 = s
      · rw [decide_eq_true hp]
      · rw [decide_eq_false hp]
        exact ih

/-- Lookup of the modified key yields the modified child. -/
theorem find?_mapChild_eq (t : ProjectNode) (k : String) (f : ProjectNode → ProjectNode) :
    (mapChild t k f).children.find? (fun kv => kv.1 = k) =
      (t.children.find? (fun kv => kv.1 = k)).map (fun kv => (kv.1, f kv.2)) := by
  show (t.children.map _).find? _ = _
  induction t.children with
  | nil => rfl
  | cons kc rest ih =>
    rw [List.map_cons, List.find?_cons, List.find?_cons]
    by_cases hk : kc.1 = k
    · rw [if_pos hk]
      rw [decide_eq_true hk]
      rfl
    · rw [if_neg hk]
      rw [decide_eq_false hk]
      exact ih

/-- Lookup of another key is unaffected by `add_child`. -/
theorem find?_add_child_ne (t : ProjectNode) (k s : String) (hs : s ≠ k) :
    (t.add_child k).children.find? (fun kv => kv.1 = s) =
      t.children.find? (fun kv => kv.1 = s) := by
  unfold ProjectNode.add_child
  by_cases h : t.children.any (fun kv => kv.1 = k) = true
  · rw [if_pos h]
  · rw [if_neg h]
    show (t.children ++ [(k, ProjectNode.mk none [])]).find? _ = _
    rw [List.find?_append]
    have hone : ([((k : String), ProjectNode.mk none [])].find? (fun kv => kv.1 = s)) = none := by
      rw [List.find?_cons]
      rw [decide_eq_false (fun hcontra => hs hcontra.symm)]
      rfl
    rw [hone]
    cases t.children.find? (fun kv => kv.1 = s) <;> rfl

/-- After `add_child`, the key is present. -/
theorem find?_add_child_self (t : ProjectNode) (k : String) :
    ((t.add_child k).children.find? (fun kv => kv.1 = k)).isSome = true := by
  unfold ProjectNode.add_child
  by_cases h : t.children.any (fun kv => kv.1 = k) = true
  · rw [if_pos h]
    obtain ⟨kv, hmem, hk⟩ := List.any_eq_true.mp h
    exact List.find?_isSome.mpr ⟨kv, hmem, hk⟩
  · rw [if_neg h]
    show ((t.children ++ [(k, ProjectNode.mk none [])]).find? _).isSome = true
    rw [List.find?_append]
    rw [Bool.not_eq_true] at h
    rw [List.any_eq_false] at h
    have hnone : t.children.find? (fun kv => kv.1 = k) = none := by
      rw [List.find?_eq_none]
      intro kv hkv
      simpa using h kv hkv
    rw [hnone]
    rw [List.find?_cons]
    rw [decide_eq_true (rfl : k = k)]
    rfl

/-- The key of a found entry satisfies the key predicate. -/
theorem find?_key {l : List (String × ProjectNode)} {s : String} {kv : String × ProjectNode}
    (h : l.find? (fun kv => kv.1 = s) = some kv) : kv.1 = s := by
  have := List.find?_some h
  simpa using this

/-- Attaching a passage puts it exactly at the node reached along the
name's segment path. -/
theorem lookupPath_add_passage_self (n : Nat) :
    ∀ (name : String), name.length ≤ n → ∀ (t : ProjectNode) (p : Passage),
    ∃ node, lookupPath (t.add_passage p name) (pathSegs name) = some node ∧
      node.passage = some p := by
  induction n with
  | zero =>
    intro name hlen t p
    have hname : name = "" := by
      have : name.data = [] := List.length_eq_zero.mp (Nat.le_zero.mp hlen)
      apply String.ext
      simp [this]
    subst hname
    rw [ProjectNode.add_passage_eq, pathSegs_eq]
    have he : (split_name "").2 = "" := rfl
    simp only [he]
    simp only [if_pos]
    rw [lookupPath_cons, find?_mapChild_eq]
    obtain ⟨kv, hkv⟩ := Option.isSome_iff_exists.mp (find?_add_child_self t "")
    rw [hkv]
    exact ⟨_, rfl, rfl⟩
  | succ n ih =>
    intro name hlen t p
    rw [ProjectNode.add_passage_eq, pathSegs_eq]
    by_cases he : (split_name name).2 = ""
    · simp only [he]
      simp only [if_pos]
      rw [lookupPath_cons, find?_mapChild_eq]
      obtain ⟨kv, hkv⟩ := Option.isSome_iff_exists.mp (find?_add_child_self t name)
      rw [hkv]
      exact ⟨_, rfl, rfl⟩
    · simp only [he]
      simp only [Bool.false_eq_true, if_false]
      rw [lookupPath_cons, find?_mapChild_eq]
      obtain ⟨kv, hkv⟩ := Option.isSome_iff_exists.mp
        (find?_add_child_self t (split_name name).1)
      rw [hkv]
      have hlt := split_name_snd_lt name he
      exact ih (split_name name).2 (by omega) kv.2 p

/-- Attaching a passage along one name preserves the passage seen at any
other segment path. The case analysis follows `add_passage`: a fresh or
existing child is modified only along the name's own path. -/
theorem lookupPath_add_passage_other (n : Nat) :
    ∀ (name : String), name.length ≤ n →
    ∀ (t : ProjectNode) (p : Passage) (path : List String) (node : ProjectNode),
    path ≠ pathSegs name →
    lookupPath t path = some node →
    ∃ node', lookupPath (t.add_passage p name) path = some node' ∧
      node'.passage = node.passage := by
  induction n with
  | zero =>
    intro name hlen t p path node hne hfound
    have hname : name = "" := by
      have : name.data = [] := List.length_eq_zero.mp (Nat.le_zero.mp hlen)
      apply String.ext
      simp [this]
    subst hname
    rw [ProjectNode.add_passage_eq]
    have he : (split_name "").2 = "" := rfl
    simp only [he]
    simp only [if_pos]
    have hsegs : pathSegs "" = [""] := by decide
    rw [hsegs] at hne
    cases path with
    | nil =>
      refine ⟨_, rfl, ?_⟩
      rw [mapChild_passage, add_child_passage]
      have hnode : t = node := by
        unfold lookupPath at hfound
        exact Option.some_inj.mp hfound
      rw [hnode]
    | cons s rest =>
      rw [lookupPath_cons] at hfound ⊢
      by_cases hs : s = ""
      · subst hs
        rw [find?_mapChild_eq]
        cases hfind : t.children.find? (fun kv => kv.1 = "") with
        | none => rw [hfind] at hfound; exact absurd hfound (by simp)
        | some kv =>
          rw [hfind] at hfound
          have hadd : t.add_child "" = t := by
            unfold ProjectNode.add_child
            rw [if_pos (List.any_eq_true.mpr ⟨kv, List.mem_of_find?_eq_some hfind,
              by simpa using find?_key hfind⟩)]
          rw [hadd, hfind]
          cases rest with
          | nil => exact absurd rfl hne
          | cons r rs => exact ⟨node, hfound, rfl⟩
      · rw [find?_mapChild_ne _ _ _ _ hs, find?_add_child_ne _ _ _ hs]
        cases hfind : t.children.find? (fun kv => kv.1 = s) with
        | none => rw [hfind] at hfound; exact absurd hfound (by simp)
        | some kv =>
          rw [hfind] at hfound
          exact ⟨node, hfound, rfl⟩
  | succ n ih =>
    intro name hlen t p path node hne hfound
    rw [ProjectNode.add_passage_eq]
    by_cases he : (split_name name).2 = ""
    · simp only [he]
      simp only [if_pos]
      have hsegs : pathSegs name = [name] := by
        rw [pathSegs_eq]
        simp [he]
      rw [hsegs] at hne
      cases path with
      | nil =>
        refine ⟨_, rfl, ?_⟩
        rw [mapChild_passage, add_child_passage]
        have hnode : t = node := by
          unfold lookupPath at hfound
          exact Option.some_inj.mp hfound
        rw [hnode]
      | cons s rest =>
        rw [lookupPath_cons] at hfound ⊢
        by_cases hs : s = name
        · subst hs
          rw [find?_mapChild_eq]
          cases hfind : t.children.find? (fun kv => kv.1 = s) with
          | none => rw [hfind] at hfound; exact absurd hfound (by simp)
          | some kv =>
            rw [hfind] at hfound
            have hadd : t.add_child s = t := by
              unfold ProjectNode.add_child
              rw [if_pos (List.any_eq_true.mpr ⟨kv, List.mem_of_find?_eq_some hfind,
                by simpa using find?_key hfind⟩)]
            rw [hadd, hfind]
            cases rest with
            | nil => exact absurd rfl hne
            | cons r rs => exact ⟨node, hfound, rfl⟩
        · rw [find?_mapChild_ne _ _ _ _ hs, find?_add_child_ne _ _ _ hs]
          cases hfind : t.children.find? (fun kv => kv.1 = s) with
          | none => rw [hfind] at hfound; exact absurd hfound (by simp)
          | some kv =>
            rw [hfind] at hfound
            exact ⟨node, hfound, rfl⟩
    · simp only [he]
      simp only [Bool.false_eq_true, if_false]
      have hsegs : pathSegs name = (split_name name).1 :: pathSegs (split_name name).2 := by
        rw [pathSegs_eq]
        simp [he]
      rw [hsegs] at hne
      cases path with
      | nil =>
        refine ⟨_, rfl, ?_⟩
        rw [mapChild_passage, add_child_passage]
        have hnode : t = node := by
          unfold lookupPath at hfound
          exact Option.some_inj.mp hfound
        rw [hnode]
      | cons s rest =>
        rw [lookupPath_cons] at hfound ⊢
        by_cases hs : s = (split_name name).1
        · rw [hs] at hfound ⊢
          rw [find?_mapChild_eq]
          cases hfind : t.children.find? (fun kv => kv.1 = (split_name name).1) with
          | none => rw [hfind] at hfound; exact absurd hfound (by simp)
          | some kv =>
            rw [hfind] at hfound
            have hadd : t.add_child (split_name name).1 = t := by
              unfold ProjectNode.add_child
              rw [if_pos (List.any_eq_true.mpr ⟨kv, List.mem_of_find?_eq_some hfind,
                by simpa using find?_key hfind⟩)]
            rw [hadd, hfind]
            have hrest : rest ≠ pathSegs (split_name name).2 := by
              intro hr
              exact hne (by rw [hr, hs])
            have hlt := split_name_snd_lt name he
            exact ih (split_name name).2 (by omega) kv.2 p rest node hrest hfound
        · rw [find?_mapChild_ne _ _ _ _ hs, find?_add_child_ne _ _ _ hs]
          cases hfind : t.children.find? (fun kv => kv.1 = s) with
          | none => rw [hfind] at hfound; exact absurd hfound (by simp)
          | some kv =>
            rw [hfind] at hfound
            exact ⟨node, hfound, rfl⟩

/-- Folding further insertions over names with other paths preserves the
passage at a path. -/
theorem lookupPath_foldl_other (ps : List (String × Passage)) :
    ∀ (t : ProjectNode) (path : List String) (node : ProjectNode),
    (∀ kv ∈ ps, pathSegs kv.1 ≠ path) →
    lookupPath t path = some node →
    ∃ node', lookupPath (ps.foldl (fun t kv => t.add_passage kv.2 kv.1) t) path = some node' ∧
      node'.passage = node.passage := by
  induction ps with
  | nil => intro t path node _ h; exact ⟨node, h, rfl⟩
  | cons x xs ih =>
    intro t path node hne h
    obtain ⟨n1, hn1, hp1⟩ := lookupPath_add_passage_other x.1.length x.1 (Nat.le_refl _)
      t x.2 path node (fun hp => hne x (List.mem_cons_self _ _) (hp ▸ rfl)) h
    obtain ⟨n2, hn2, hp2⟩ := ih (t.add_passage x.2 x.1) path n1
      (fun kv hkv => hne kv (List.mem_cons_of_mem _ hkv)) hn1
    exact ⟨n2, hn2, hp2.trans hp1⟩

/-- C6: over an ordered passage mapping with distinct dot-delimited keys,
every passage ends up attached to exactly the node reached by descending
one child per dot-delimited segment of its key; and `add_child` without
overwrite returns the existing child, never replacing it. -/
theorem c6_populate_attaches (ps : List (String × Passage))
    (hnd : (ps.map Prod.fst).Nodup) :
    (∀ kv ∈ ps, ∃ node,
        lookupPath (populate_project_tree ps) (pathSegs kv.1) = some node ∧
        node.passage = some kv.2)
  ∧ (∀ (t : ProjectNode) (k : String),
        t.children.any (fun kv => kv.1 = k) = true → t.add_child k = t) := by
  constructor
  · suffices hgen : ∀ (ps : List (String × Passage)) (t : ProjectNode),
        (ps.map Prod.fst).Nodup →
        ∀ kv ∈ ps, ∃ node,
          lookupPath (ps.foldl (fun t kv => t.add_passage kv.2 kv.1) t) (pathSegs kv.1) =
            some node ∧ node.passage = some kv.2 by
      intro kv hkv
      exact hgen ps (ProjectNode.mk none []) hnd kv hkv
    intro ps
    induction ps with
    | nil => intro t _ kv hkv; exact absurd hkv (List.not_mem_nil _)
    | cons x xs ih =>
      intro t hnd0 kv hkv
      rw [List.map_cons] at hnd0
      have hnd2 := List.nodup_cons.mp hnd0
      rcases List.mem_cons.mp hkv with hhead | htail
      · subst hhead
        obtain ⟨n1, hn1, hp1⟩ :=
          lookupPath_add_passage_self kv.1.length kv.1 (Nat.le_refl _) t kv.2
        have hother : ∀ kv2 ∈ xs, pathSegs kv2.1 ≠ pathSegs kv.1 := by
          intro kv2 hkv2 hpath
          apply hnd2.1
          rw [show kv.1 = kv2.1 from (pathSegs_injective hpath).symm]
          exact List.mem_map.mpr ⟨kv2, hkv2, rfl⟩
        obtain ⟨n2, hn2, hp2⟩ := lookupPath_foldl_other xs (t.add_passage kv.2 kv.1)
          (pathSegs kv.1) n1 hother hn1
        exact ⟨n2, hn2, hp2.trans hp1⟩
      · exact ih (t.add_passage x.2 x.1) hnd2.2 kv htail
  · intro t k h
    unfold ProjectNode.add_child
    rw [if_pos h]

/-- Witness for C6 on a concrete two-passage mapping. -/
theorem c6_witness :
    ∃ node,
      lookupPath (populate_project_tree
          [("m.a", demoPassage "m.a"), ("m.b", demoPassage "m.b")])
        (pathSegs "m.a") = some node ∧
      node.passage = some (demoPassage "m.a") :=
  (c6_populate_attaches [("m.a", demoPassage "m.a"), ("m.b", demoPassage "m.b")]
      (by decide)).1
    ("m.a", demoPassage "m.a") (List.mem_cons_self _ _)

/-! ## Claim C4: the header grammar

The claim describes the header grammar in words; the sets below spell that
grammar out. `headerMatches` (the embedded regex engine) is then proved to
accept exactly the language with a mandatory leading `::`. -/

/-- A run of spaces. -/
def SpStr (w : List Char) : Prop := ∀ c ∈ w, c = ' '

/-- A run of non-bracket characters (the name alphabet of the grammar). -/
def NonBrStr (w : List Char) : Prop := ∀ c ∈ w, c ≠ '['

/-- An optional bracketed group: absent, or `[` then anything then `]`. -/
def BrOpt (x : List Char) : Prop := x = [] ∨ ∃ inner, x = '[' :: inner ++ [']']

/-- An optional angle group: absent, or `<` then anything then `>`. -/
def AngOpt (z : List Char) : Prop := z = [] ∨ ∃ inner, z = '<' :: inner ++ ['>']

/-- The language of everything after the name group: optional spaces, an
optional bracketed tag group, optional spaces, an optional angle geometry
group, and trailing whitespace. -/
def TrailerSet (r : List Char) : Prop :=
  ∃ y0 x y z v, r = y0 ++ x ++ y ++ z ++ v ∧
    SpStr y0 ∧ BrOpt x ∧ SpStr y ∧ AngOpt z ∧ SpStr v

/-- The language of a header line body (after the leading `::`): a name of
non-bracket characters followed by the trailer. -/
def HeaderLang (t : List Char) : Prop :=
  ∃ w r, t = w ++ r ∧ NonBrStr w ∧ TrailerSet r

/-- Claim-side grammar of a whole header body, following the claim's words:
an (untrimmed) name of non-bracket characters with surrounding spaces, then
an optional bracketed space-separated tag list, then an optional
angle-bracketed geometry list, then only trailing whitespace. -/
def ClaimHeaderBody (t : List Char) : Prop :=
  ∃ sp1 nm sp2 x sp3 z sp4, t = sp1 ++ nm ++ sp2 ++ x ++ sp3 ++ z ++ sp4 ∧
    SpStr sp1 ∧ NonBrStr nm ∧ SpStr sp2 ∧ BrOpt x ∧ SpStr sp3 ∧ AngOpt z ∧ SpStr sp4

/-- A header line with the mandatory leading `::` of the regex. -/
def MandHeader (s : List Char) : Prop :=
  ∃ t, s = ':' :: ':' :: t ∧ ClaimHeaderBody t

/-- The claim's grammar: an optional leading `::`, then the header body. -/
def OptHeader (s : List Char) : Prop :=
  MandHeader s ∨ ClaimHeaderBody s

/-- The claim-side body grammar coincides with the collapsed form: spaces
are non-bracket characters, so the leading space runs merge into the name. -/
theorem claimHeaderBody_iff (t : List Char) : ClaimHeaderBody t ↔ HeaderLang t := by
  constructor
  · rintro ⟨sp1, nm, sp2, x, sp3, z, sp4, rfl, h1, h2, h3, h4, h5, h6, h7⟩
    refine ⟨sp1 ++ nm, sp2 ++ x ++ sp3 ++ z ++ sp4, by simp, ?_, ?_⟩
    · intro c hc
      rcases List.mem_append.mp hc with h | h
      · rw [h1 c h]
        decide
      · exact h2 c h
    · exact ⟨sp2, x, sp3, z, sp4, by simp, h3, h4, h5, h6, h7⟩
  · rintro ⟨w, r, rfl, hw, y0, x, y, z, v, rfl, h1, h2, h3, h4, h5⟩
    exact ⟨[], w, y0, x, y, z, v, by simp, by intro c hc; simp at hc, hw, h1, h2, h3, h4, h5⟩

/-- Characters of a prefix within the maximal `takeWhile` run satisfy the
predicate. -/
theorem take_all_of_le_takeWhile (p : Char → Bool) :
    ∀ (s : List Char) (j : Nat), j ≤ (s.takeWhile p).length →
      ∀ c ∈ s.take j, p c = true := by
  intro s
  induction s with
  | nil => intro j _ c hc; simp at hc
  | cons a as ih =>
    intro j hj c hc
    by_cases ha : p a = true
    · rw [List.takeWhile_cons, ha] at hj
      simp only [if_pos] at hj
      cases j with
      | zero => simp at hc
      | succ j =>
        rw [List.take_succ_cons] at hc
        rcases List.mem_cons.mp hc with h | h
        · rw [h]; exact ha
        · exact ih j (by simpa using hj) c h
    · rw [Bool.not_eq_true] at ha
      rw [List.takeWhile_cons, ha] at hj
      simp only [Bool.false_eq_true, if_false] at hj
      have : j = 0 := by simpa using hj
      subst this
      simp at hc

/-- A prefix all of whose characters satisfy the predicate is no longer
than the maximal `takeWhile` run. -/
theorem prefix_le_takeWhile (p : Char → Bool) :
    ∀ (w r : List Char), (∀ c ∈ w, p c = true) →
      w.length ≤ ((w ++ r).takeWhile p).length := by
  intro w
  induction w with
  | nil => intro r _; simp
  | cons a as ih =>
    intro r hw
    rw [List.cons_append, List.takeWhile_cons, hw a (List.mem_cons_self _ _)]
    simp only [if_pos, List.length_cons]
    exact Nat.succ_le_succ (ih r (fun c hc => hw c (List.mem_cons_of_mem _ hc)))

/-- Soundness of the greedy space alternatives: each choice strips a run
of spaces. -/
theorem spChoices_sound {s r : List Char} (h : r ∈ spChoices s) :
    ∃ w, SpStr w ∧ s = w ++ r := by
  unfold spChoices at h
  obtain ⟨i, _, hdrop⟩ := List.mem_map.mp h
  refine ⟨s.take ((s.takeWhile (fun c => c = ' ')).length - i), ?_, ?_⟩
  · intro c hc
    have := take_all_of_le_takeWhile (fun c => c = ' ') s
      ((s.takeWhile (fun c => c = ' ')).length - i) (Nat.sub_le _ _) c hc
    simpa using this
  · rw [← hdrop]
    exact (List.take_append_drop _ s).symm

/-- Completeness of the greedy space alternatives. -/
theorem spChoices_complete {w r : List Char} (hw : SpStr w) :
    r ∈ spChoices (w ++ r) := by
  unfold spChoices
  have hle : w.length ≤ (((w ++ r)).takeWhile (fun c => c = ' ')).length :=
    prefix_le_takeWhile _ w r (fun c hc => by simpa using hw c hc)
  refine List.mem_map.mpr ⟨((w ++ r).takeWhile (fun c => c = ' ')).length - w.length, ?_, ?_⟩
  · rw [List.mem_range]
    omega
  · rw [show (((w ++ r).takeWhile (fun c => c = ' ')).length -
        (((w ++ r).takeWhile (fun c => c = ' ')).length - w.length)) = w.length by omega]
    rw [List.drop_append_eq_append_drop]
    simp

/-- Soundness of the lazy name alternatives: each choice captures a run of
non-bracket characters. -/
theorem nameChoices_sound {s : List Char} {nm r : List Char}
    (h : (nm, r) ∈ nameChoices s) : s = nm ++ r ∧ NonBrStr nm := by
  unfold nameChoices at h
  obtain ⟨n, hn, heq⟩ := List.mem_map.mp h
  rw [List.mem_range] at hn
  rw [Prod.mk.injEq] at heq
  obtain ⟨h1, h2⟩ := heq
  subst h1
  subst h2
  refine ⟨(List.take_append_drop _ s).symm, ?_⟩
  intro c hc
  have := take_all_of_le_takeWhile (fun c => c ≠ '[') s n (by omega) c hc
  simpa using this

/-- Completeness of the lazy name alternatives. -/
theorem nameChoices_complete {w r : List Char} (hw : NonBrStr w) :
    (w, r) ∈ nameChoices (w ++ r) := by
  unfold nameChoices
  have hle : w.length ≤ (((w ++ r)).takeWhile (fun c => c ≠ '[')).length :=
    prefix_le_takeWhile _ w r (fun c hc => by simpa using hw c hc)
  refine List.mem_map.mpr ⟨w.length, ?_, ?_⟩
  · rw [List.mem_range]
    omega
  · rw [Prod.mk.injEq]
    constructor
    · exact List.take_left w r
    · rw [List.drop_append_eq_append_drop]
      simp

/-- Splitting a list at a position holding a given element. -/
theorem getElem?_split : ∀ (l : List Char) (i : Nat) (c : Char), l[i]? = some c →
    l = l.take i ++ c :: l.drop (i + 1) := by
  intro l
  induction l with
  | nil => intro i c h; simp at h
  | cons a as ih =>
    intro i c h
    cases i with
    | zero =>
      simp only [List.getElem?_cons_zero, Option.some_inj] at h
      simp [h]
    | succ i =>
      rw [List.getElem?_cons_succ] at h
      rw [List.take_succ_cons, List.drop_succ_cons, List.cons_append]
      rw [← ih i c h]

/-- Soundness of the optional group alternatives. -/
theorem groupChoices_sound {opn cls : Char} {s : List Char}
    {tg : Option (List Char)} {r : List Char}
    (h : (tg, r) ∈ groupChoices opn cls s) :
    (tg = none ∧ r = s) ∨ ∃ inner, tg = some inner ∧ s = opn :: inner ++ cls :: r := by
  cases s with
  | nil =>
    simp only [groupChoices] at h
    left
    simpa [Prod.mk.injEq, eq_comm] using List.mem_singleton.mp h
  | cons c body =>
    simp only [groupChoices] at h
    by_cases hc : c = opn
    · rw [if_pos hc] at h
      rcases List.mem_append.mp h with h1 | h1
      · obtain ⟨pr, hpr, heq⟩ := List.mem_map.mp h1
        unfold innerSplits at hpr
        obtain ⟨i, hi, hif⟩ := List.mem_filterMap.mp hpr
        by_cases hgi : body[i]? = some cls
        · rw [if_pos hgi, Option.some_inj] at hif
          rw [Prod.mk.injEq] at heq
          right
          refine ⟨pr.1, heq.1.symm, ?_⟩
          rw [hc]
          show opn :: body = opn :: (pr.1 ++ cls :: r)
          congr 1
          rw [← heq.2, ← hif]
          exact getElem?_split body i cls hgi
        · rw [if_neg hgi] at hif
          exact absurd hif (by simp)
      · left
        have h2 := List.mem_singleton.mp h1
        rw [Prod.mk.injEq] at h2
        exact ⟨h2.1, h2.2⟩
    · rw [if_neg hc] at h
      left
      have h2 := List.mem_singleton.mp h
      rw [Prod.mk.injEq] at h2
      exact ⟨h2.1, h2.2⟩

/-- The skip alternative is always offered for an optional group. -/
theorem groupChoices_skip (opn cls : Char) (s : List Char) :
    ((none : Option (List Char)), s) ∈ groupChoices opn cls s := by
  cases s with
  | nil => simp [groupChoices]
  | cons c body =>
    simp only [groupChoices]
    by_cases hc : c = opn
    · rw [if_pos hc]
      exact List.mem_append_right _ (List.mem_singleton.mpr rfl)
    · rw [if_neg hc]
      exact List.mem_singleton.mpr rfl

/-- The element of a list at the length of a preceding block. -/
theorem getElem?_append_cons (a : List Char) (c : Char) (b : List Char) :
    (a ++ c :: b)[a.length]? = some c := by
  induction a with
  | nil => simp
  | cons x xs ih =>
    rw [List.cons_append, List.length_cons, List.getElem?_cons_succ]
    exact ih

/-- The matching alternative is offered for an optional group. -/
theorem groupChoices_match (opn cls : Char) (inner r : List Char) :
    (some inner, r) ∈ groupChoices opn cls (opn :: inner ++ cls :: r) := by
  show (some inner, r) ∈ groupChoices opn cls (opn :: (inner ++ cls :: r))
  simp only [groupChoices, if_true]
  apply List.mem_append_left
  refine List.mem_map.mpr ⟨(inner, r), ?_, rfl⟩
  unfold innerSplits
  refine List.mem_filterMap.mpr ⟨inner.length, ?_, ?_⟩
  · rw [List.mem_range, List.length_append, List.length_cons]
    omega
  · rw [getElem?_append_cons]
    rw [if_pos rfl]
    rw [Option.some_inj, Prod.mk.injEq]
    constructor
    · exact List.take_left inner (cls :: r)
    · rw [List.drop_append_eq_append_drop]
      simp

/-- Soundness of the final space-and-end alternatives. -/
theorem finalChoices_sound {s : List Char} {β : Type} {v : β} {e : β}
    (h : e ∈ (spChoices s).filterMap (fun r7 => if r7 = [] then some v else none)) :
    SpStr s ∧ e = v := by
  obtain ⟨r7, hr7, hif⟩ := List.mem_filterMap.mp h
  by_cases hnil : r7 = []
  · rw [if_pos hnil] at hif
    obtain ⟨w, hw, hsplit⟩ := spChoices_sound hr7
    subst hnil
    rw [List.append_nil] at hsplit
    subst hsplit
    exact ⟨hw, (Option.some_inj.mp hif).symm⟩
  · rw [if_neg hnil] at hif
    exact absurd hif (by simp)

/-- Completeness of the final space-and-end alternatives. -/
theorem finalChoices_complete {s : List Char} {β : Type} (v : β) (hs : SpStr s) :
    v ∈ (spChoices s).filterMap (fun r7 => if r7 = [] then some v else none) := by
  refine List.mem_filterMap.mpr ⟨[], ?_, by simp⟩
  have := spChoices_complete (r := []) hs
  simpa using this

/-- Soundness of the trailer alternatives: any candidate match exhibits a
trailer decomposition. -/
theorem trailerMatches_sound {r : List Char} {e : Option (List Char) × Option (List Char)}
    (h : e ∈ trailerMatches r) : TrailerSet r := by
  unfold trailerMatches at h
  obtain ⟨r3, hr3, h⟩ := List.mem_flatMap.mp h
  obtain ⟨⟨o1, r4⟩, htg, h⟩ := List.mem_flatMap.mp h
  obtain ⟨r5, hr5, h⟩ := List.mem_flatMap.mp h
  obtain ⟨⟨o2, r6⟩, hgm, h⟩ := List.mem_flatMap.mp h
  obtain ⟨hsp6, _⟩ := finalChoices_sound h
  obtain ⟨w1, hw1, he1⟩ := spChoices_sound hr3
  obtain ⟨w2, hw2, he2⟩ := spChoices_sound hr5
  have he2' : r4 = w2 ++ r5 := he2
  have hsp6' : SpStr r6 := hsp6
  have hbr : ∃ x, BrOpt x ∧ r3 = x ++ r4 := by
    rcases groupChoices_sound htg with ⟨_, hre⟩ | ⟨inner, _, hre⟩
    · exact ⟨[], Or.inl rfl, by rw [hre]; rfl⟩
    · exact ⟨'[' :: inner ++ [']'], Or.inr ⟨inner, rfl⟩, by rw [hre]; simp⟩
  have hang : ∃ z, AngOpt z ∧ r5 = z ++ r6 := by
    rcases groupChoices_sound hgm with ⟨_, hre⟩ | ⟨inner, _, hre⟩
    · exact ⟨[], Or.inl rfl, by rw [hre]; rfl⟩
    · exact ⟨'<' :: inner ++ ['>'], Or.inr ⟨inner, rfl⟩, by rw [hre]; simp⟩
  obtain ⟨x, hx, he3⟩ := hbr
  obtain ⟨z, hz, he4⟩ := hang
  refine ⟨w1, x, w2, z, r6, ?_, hw1, hx, hw2, hz, hsp6'⟩
  rw [he1, he3, he2', he4]
  simp

/-- Completeness of the trailer alternatives: any trailer decomposition
yields a candidate match. -/
theorem trailerMatches_complete {r : List Char} (h : TrailerSet r) :
    trailerMatches r ≠ [] := by
  obtain ⟨y0, x, y, z, v, rfl, hsp0, hbr, hsp1, hang, hsp2⟩ := h
  have hx : ∃ o1, (o1, y ++ z ++ v) ∈ groupChoices '[' ']' (x ++ (y ++ z ++ v)) := by
    rcases hbr with rfl | ⟨inner, rfl⟩
    · exact ⟨none, groupChoices_skip _ _ _⟩
    · refine ⟨some inner, ?_⟩
      have := groupChoices_match '[' ']' inner (y ++ z ++ v)
      simpa using this
  have hz : ∃ o2, (o2, v) ∈ groupChoices '<' '>' (z ++ v) := by
    rcases hang with rfl | ⟨inner, rfl⟩
    · exact ⟨none, groupChoices_skip _ _ _⟩
    · refine ⟨some inner, ?_⟩
      have := groupChoices_match '<' '>' inner v
      simpa using this
  obtain ⟨o1, ho1⟩ := hx
  obtain ⟨o2, ho2⟩ := hz
  apply List.ne_nil_of_mem (a := (o1, o2))
  unfold trailerMatches
  refine List.mem_flatMap.mpr ⟨x ++ (y ++ z ++ v), ?_, ?_⟩
  · have := spChoices_complete (w := y0) (r := x ++ (y ++ z ++ v)) hsp0
    simpa using this
  refine List.mem_flatMap.mpr ⟨(o1, y ++ z ++ v), ho1, ?_⟩
  refine List.mem_flatMap.mpr ⟨z ++ v, ?_, ?_⟩
  · have := spChoices_complete (w := y) (r := z ++ v) hsp1
    simpa using this
  refine List.mem_flatMap.mpr ⟨(o2, v), ho2, ?_⟩
  exact finalChoices_complete _ hsp2

/-- Soundness of the whole-line alternatives. -/
theorem headerMatches_sound {s : List Char}
    {e : List Char × Option (List Char) × Option (List Char)}
    (h : e ∈ headerMatches s) : MandHeader s := by
  unfold headerMatches at h
  split at h
  · next t =>
    obtain ⟨r1, hr1, h⟩ := List.mem_flatMap.mp h
    obtain ⟨⟨nm, r2⟩, hnm, h⟩ := List.mem_flatMap.mp h
    obtain ⟨tgm, htgm, _⟩ := List.mem_map.mp h
    obtain ⟨w1, hw1, he1⟩ := spChoices_sound hr1
    obtain ⟨he2, hnb⟩ := nameChoices_sound hnm
    have htr := trailerMatches_sound htgm
    refine ⟨t, rfl, ?_⟩
    rw [claimHeaderBody_iff]
    refine ⟨w1 ++ nm, r2, by rw [he1, he2]; simp, ?_, htr⟩
    intro c hc
    rcases List.mem_append.mp hc with h1 | h1
    · rw [hw1 c h1]
      decide
    · exact hnb c h1
  · next => simp at h

/-- Completeness of the whole-line alternatives. -/
theorem headerMatches_complete {s : List Char} (h : MandHeader s) :
    headerMatches s ≠ [] := by
  obtain ⟨t, rfl, hbody⟩ := h
  rw [claimHeaderBody_iff] at hbody
  obtain ⟨w, r, rfl, hw, htr⟩ := hbody
  show headerMatches (':' :: ':' :: (w ++ r)) ≠ []
  have h1 : (w ++ r) ∈ spChoices (w ++ r) := by
    have := spChoices_complete (w := []) (r := w ++ r) (by intro c hc; simp at hc)
    simpa using this
  have h2 : (w, r) ∈ nameChoices (w ++ r) := nameChoices_complete hw
  obtain ⟨e0, he0⟩ := List.exists_mem_of_ne_nil _ (trailerMatches_complete htr)
  apply List.ne_nil_of_mem (a := (w, e0.1, e0.2))
  show _ ∈ (spChoices (w ++ r)).flatMap _
  exact List.mem_flatMap.mpr ⟨w ++ r, h1,
    List.mem_flatMap.mpr ⟨(w, r), h2, List.mem_map.mpr ⟨e0, he0, rfl⟩⟩⟩

/-- C4 counterexample: the line `abc` satisfies the claim's grammar (the
leading `::` being optional there) but the parser reports it as not a
header — the regex requires the `::`. -/
theorem c4_counterexample :
    (parse_passage_header "abc").1 = none ∧ OptHeader "abc".data := by
  constructor
  · decide
  · right
    refine ⟨[], "abc".data, [], [], [], [], [], by simp, ?_, ?_, ?_, Or.inl rfl, ?_, Or.inl rfl, ?_⟩
    · intro c hc
      simp at hc
    · show ∀ c ∈ "abc".data, c ≠ '['
      decide
    · intro c hc
      simp at hc
    · intro c hc
      simp at hc
    · intro c hc
      simp at hc

/-- C4 amended: the header parser recognizes a line exactly when it matches
the grammar with a MANDATORY leading `::` (then a non-bracket name with
surrounding spaces, an optional bracketed tag list, an optional
angle-bracketed geometry list, and trailing whitespace); a line failing the
grammar is reported as not a header, never as an error. -/
theorem c4_amended (line : String) :
    ((parse_passage_header line).1.isSome = true ↔ MandHeader line.data)
  ∧ ((parse_passage_header line).1.isSome = true ∨
      parse_passage_header line = (none, none, none)) := by
  constructor
  · constructor
    · intro h
      unfold parse_passage_header at h
      cases hls : headerMatches line.data with
      | nil => rw [hls] at h; simp at h
      | cons a as =>
        exact headerMatches_sound (hls ▸ List.mem_cons_self a as)
    · intro h
      have hne := headerMatches_complete h
      unfold parse_passage_header
      cases hls : headerMatches line.data with
      | nil => exact absurd hls hne
      | cons a as =>
        obtain ⟨nm, tg, gm⟩ := a
        rfl
  · unfold parse_passage_header
    cases (headerMatches line.data).head? with
    | none => right; rfl
    | some e =>
      left
      obtain ⟨nm, tg, gm⟩ := e
      rfl

/-! ## Claim C9: header round-trip

The first match found by the backtracking search is computed symbolically:
at every choice point of the engine, all alternatives preferred over the
intended one are shown to fail, following the structure of the rendered
header. -/

/-- The head of a flat map when every earlier alternative fails. -/
theorem flatMap_head_first {α β : Type} (f : α → List β) :
    ∀ (l₁ : List α) (x : α) (l₂ : List α), (∀ a ∈ l₁, f a = []) →
      ((l₁ ++ x :: l₂).flatMap f).head? = (f x ++ l₂.flatMap f).head? := by
  intro l₁
  induction l₁ with
  | nil => intro x l₂ _; rfl
  | cons a as ih =>
    intro x l₂ h
    rw [List.cons_append, List.flatMap_cons, h a (List.mem_cons_self _ _), List.nil_append]
    exact ih x l₂ (fun b hb => h b (List.mem_cons_of_mem _ hb))

/-- The head of an append whose first part has a head. -/
theorem head?_append_some {α : Type} {a : List α} {e : α} (b : List α)
    (h : a.head? = some e) : (a ++ b).head? = some e := by
  cases a with
  | nil => simp at h
  | cons x xs => simpa using h

/-- Dropping spaces across an all-space prefix. -/
theorem dropWhile_sp_append {a : List Char} (b : List Char) (ha : SpStr a) :
    ((a ++ b).dropWhile (fun c => c = ' ')) = b.dropWhile (fun c => c = ' ') := by
  induction a with
  | nil => rfl
  | cons x xs ih =>
    rw [List.cons_append, List.dropWhile_cons]
    rw [decide_eq_true (ha x (List.mem_cons_self _ _))]
    simp only [if_pos]
    exact ih (fun c hc => ha c (List.mem_cons_of_mem _ hc))

/-- Dropping the prefix stops at the first failing element, also under an
appended tail. -/
theorem dropWhile_append_of_ne_nil {p : Char → Bool} :
    ∀ (a b : List Char), a.dropWhile p ≠ [] →
      (a ++ b).dropWhile p = a.dropWhile p ++ b := by
  intro a
  induction a with
  | nil => intro b h; exact absurd rfl h
  | cons x xs ih =>
    intro b h
    rw [List.dropWhile_cons] at h ⊢
    rw [List.cons_append, List.dropWhile_cons]
    by_cases hx : p x = true
    · rw [hx] at h ⊢
      simp only [if_pos] at h ⊢
      exact ih b h
    · rw [Bool.not_eq_true] at hx
      rw [hx] at h ⊢
      simp

/-- The head of the dropped-prefix remainder fails the predicate. -/
theorem head_dropWhile_false {p : Char → Bool} :
    ∀ (l : List Char) {c : Char} {r : List Char}, l.dropWhile p = c :: r → p c = false := by
  intro l
  induction l with
  | nil => intro c r h; simp at h
  | cons x xs ih =>
    intro c r h
    rw [List.dropWhile_cons] at h
    by_cases hx : p x = true
    · rw [hx] at h
      simp only [if_pos] at h
      exact ih h
    · rw [Bool.not_eq_true] at hx
      rw [hx] at h
      simp only [Bool.false_eq_true, if_false] at h
      rw [← (List.cons.injEq _ _ _ _).mp h |>.1]
      exact hx

/-- The first non-space character of a trailer-language word can only be a
bracket or an angle opener. -/
theorem trailerSet_first_char {r : List Char} (h : TrailerSet r) :
    (r.dropWhile (fun c => c = ' ')).head? = none ∨
    (r.dropWhile (fun c => c = ' ')).head? = some '[' ∨
    (r.dropWhile (fun c => c = ' ')).head? = some '<' := by
  obtain ⟨y0, x, y, z, v, rfl, h0, hx, h1, hz, h2⟩ := h
  have hstep : ∀ (c : Char) (a b : List Char), ¬ c = ' ' →
      (List.dropWhile (fun x => decide (x = ' ')) ((c :: a) ++ b)).head? = some c := by
    intro c a b hc
    rw [List.cons_append, List.dropWhile_cons, decide_eq_false hc]
    rfl
  simp only [List.append_assoc]
  rw [dropWhile_sp_append _ h0]
  rcases hx with rfl | ⟨inner, rfl⟩
  · rw [List.nil_append, dropWhile_sp_append _ h1]
    rcases hz with rfl | ⟨inner, rfl⟩
    · left
      rw [List.nil_append]
      rw [List.dropWhile_eq_nil_iff.mpr (fun c hc => by simpa using h2 c hc)]
      rfl
    · right; right
      exact hstep '<' (inner ++ ['>']) v (by decide)
  · right; left
    exact hstep '[' (inner ++ [']']) (y ++ (z ++ v)) (by decide)

/-- When the first non-space character is neither `[` nor `<`, the trailer
has no match at all. -/
theorem trailerMatches_blocked {r : List Char} {c : Char}
    (hc : (r.dropWhile (fun x => x = ' ')).head? = some c)
    (h1 : c ≠ '[') (h2 : c ≠ '<') : trailerMatches r = [] := by
  rw [List.eq_nil_iff_forall_not_mem]
  intro e he
  rcases trailerSet_first_char (trailerMatches_sound he) with h | h | h
  · rw [h] at hc
    exact absurd hc (by simp)
  · rw [h] at hc
    exact h1 (Option.some_inj.mp hc).symm
  · rw [h] at hc
    exact h2 (Option.some_inj.mp hc).symm

/-- The greedy space alternatives of an input that does not start with a
space: just the input itself. -/
theorem spChoices_no_space {s : List Char} (h : s.head? ≠ some ' ') :
    spChoices s = [s] := by
  unfold spChoices
  have hk : (s.takeWhile (fun c => c = ' ')).length = 0 := by
    cases s with
    | nil => rfl
    | cons x xs =>
      rw [List.takeWhile_cons]
      rw [decide_eq_false (by intro hx; exact h (by rw [hx]; rfl))]
      rfl
  rw [hk]
  rfl

/-- The greedy space alternatives of an input with exactly one leading
space: first the input beyond the space, then the whole input. -/
theorem spChoices_one_space {c : Char} (l : List Char) (hc : c ≠ ' ') :
    spChoices (' ' :: c :: l) = [c :: l, ' ' :: c :: l] := by
  unfold spChoices
  have hk : ((' ' :: c :: l).takeWhile (fun x => x = ' ')).length = 1 := by
    rw [List.takeWhile_cons, decide_eq_true rfl]
    simp only [if_pos]
    rw [List.takeWhile_cons, decide_eq_false hc]
    rfl
  rw [hk]
  rfl

/-- Pulling an `Option.map` out of a `filterMap`. -/
theorem filterMap_option_map {α β γ : Type} (g : α → Option β) (F : β → γ) :
    ∀ (l : List α), l.filterMap (fun a => (g a).map F) = (l.filterMap g).map F := by
  intro l
  induction l with
  | nil => rfl
  | cons a as ih =>
    rw [List.filterMap_cons, List.filterMap_cons]
    cases g a with
    | none => simpa using ih
    | some b => simpa using ih

/-- Recursive characterization of the lazy group-body alternatives. -/
theorem innerSplits_cons (cls c : Char) (body : List Char) :
    innerSplits cls (c :: body) =
      (if c = cls then [(([] : List Char), body)] else []) ++
        (innerSplits cls body).map (fun pr => (c :: pr.1, pr.2)) := by
  unfold innerSplits
  rw [show (c :: body).length = body.length + 1 from rfl]
  rw [List.range_succ_eq_map]
  rw [List.filterMap_cons]
  have hshift : (List.filterMap
      (fun i => if (c :: body)[i]? = some cls
        then some ((c :: body).take i, (c :: body).drop (i + 1)) else none)
      ((List.range body.length).map Nat.succ)) =
      (List.filterMap (fun i => if body[i]? = some cls
        then some (body.take i, body.drop (i + 1)) else none)
        (List.range body.length)).map (fun pr => (c :: pr.1, pr.2)) := by
    rw [List.filterMap_map]
    rw [← filterMap_option_map]
    apply List.filterMap_congr
    intro i _
    show (if (c :: body)[i + 1]? = some cls
        then some ((c :: body).take (i + 1), (c :: body).drop (i + 2)) else none) = _
    rw [List.getElem?_cons_succ]
    by_cases hgi : body[i]? = some cls
    · rw [if_pos hgi, if_pos hgi]
      rfl
    · rw [if_neg hgi, if_neg hgi]
      rfl
  by_cases hc : c = cls
  · rw [if_pos hc]
    have h0 : ((c :: body)[0]? = some cls) := by
      rw [List.getElem?_cons_zero, hc]
    rw [if_pos h0]
    rw [hshift]
    rfl
  · rw [if_neg hc]
    have h0 : ¬ ((c :: body)[0]? = some cls) := by
      rw [List.getElem?_cons_zero]
      intro hcon
      exact hc (Option.some_inj.mp hcon)
    rw [if_neg h0]
    rw [hshift]
    rfl

/-- The first alternative of a group body with no early closer: the split
at the explicit closing character. -/
theorem innerSplits_first (cls : Char) :
    ∀ (a b : List Char), (∀ c ∈ a, c ≠ cls) →
      ∃ rest, innerSplits cls (a ++ cls :: b) = (a, b) :: rest := by
  intro a
  induction a with
  | nil =>
    intro b _
    rw [List.nil_append, innerSplits_cons, if_pos rfl]
    exact ⟨_, rfl⟩
  | cons x xs ih =>
    intro b ha
    rw [List.cons_append, innerSplits_cons,
      if_neg (ha x (List.mem_cons_self _ _))]
    obtain ⟨rest, hrest⟩ := ih b (fun c hc => ha c (List.mem_cons_of_mem _ hc))
    rw [List.nil_append, hrest, List.map_cons]
    exact ⟨_, rfl⟩

/-- The group alternatives at an opening character. -/
theorem groupChoices_open (opn cls : Char) (body : List Char) :
    groupChoices opn cls (opn :: body) =
      (innerSplits cls body).map (fun p => (some p.1, p.2)) ++ [(none, opn :: body)] := by
  simp [groupChoices]

/-- The group alternatives at a non-opening character: only the skip. -/
theorem groupChoices_closed {opn c : Char} (cls : Char) (body : List Char) (hc : c ≠ opn) :
    groupChoices opn cls (c :: body) = [(none, c :: body)] := by
  simp [groupChoices, hc]

/-- The first trailer alternative of a rendered geometry-only trailer. -/
theorem trailer_head_geo (JG : List Char) (hJG : ∀ c ∈ JG, c ≠ '>') :
    (trailerMatches (' ' :: '<' :: (JG ++ ['>']))).head? = some (none, some JG) := by
  obtain ⟨rest, hrest⟩ := innerSplits_first '>' JG [] hJG
  unfold trailerMatches
  rw [spChoices_one_space (JG ++ ['>']) (by decide)]
  simp only [List.flatMap_cons, List.flatMap_nil, List.append_nil]
  rw [groupChoices_closed ']' (JG ++ ['>']) (by decide)]
  simp only [List.flatMap_cons, List.flatMap_nil, List.append_nil]
  rw [spChoices_no_space (by rw [List.head?_cons]; decide)]
  simp only [List.flatMap_cons, List.flatMap_nil, List.append_nil]
  rw [groupChoices_open '<' '>' (JG ++ ['>']), hrest]
  simp only [List.map_cons, List.cons_append, List.flatMap_cons]
  rw [show spChoices ([] : List Char) = [[]] from rfl]
  simp

/-- The first trailer alternative of a rendered tags-only trailer. -/
theorem trailer_head_tags (J : List Char) (hJ : ∀ c ∈ J, c ≠ ']') :
    (trailerMatches (' ' :: '[' :: (J ++ [']']))).head? = some (some J, none) := by
  obtain ⟨rest, hrest⟩ := innerSplits_first ']' J [] hJ
  unfold trailerMatches
  rw [spChoices_one_space (J ++ [']']) (by decide)]
  simp only [List.flatMap_cons, List.flatMap_nil, List.append_nil]
  rw [groupChoices_open '[' ']' (J ++ [']']), hrest]
  simp only [List.map_cons, List.cons_append, List.flatMap_cons]
  simp [groupChoices, spChoices, List.findSome?_cons, List.range_succ]

theorem trailer_head_tags_geo (J JG : List Char) (hJ : ∀ c ∈ J, c ≠ ']')
    (hJG : ∀ c ∈ JG, c ≠ '>') :
    (trailerMatches (' ' :: '[' :: (J ++ ']' :: ' ' :: '<' :: (JG ++ ['>'])))).head? =
      some (some J, some JG) := by
  obtain ⟨rest1, hrest1⟩ := innerSplits_first ']' J (' ' :: '<' :: (JG ++ ['>'])) hJ
  obtain ⟨rest2, hrest2⟩ := innerSplits_first '>' JG [] hJG
  unfold trailerMatches
  rw [spChoices_one_space (J ++ ']' :: ' ' :: '<' :: (JG ++ ['>'])) (by decide)]
  simp only [List.flatMap_cons, List.flatMap_nil, List.append_nil]
  rw [groupChoices_open '[' ']' (J ++ ']' :: ' ' :: '<' :: (JG ++ ['>'])), hrest1]
  simp only [List.map_cons, List.cons_append, List.flatMap_cons]
  rw [spChoices_one_space (JG ++ ['>']) (by decide)]
  simp only [List.flatMap_cons, List.flatMap_nil, List.append_nil]
  rw [groupChoices_open '<' '>' (JG ++ ['>']), hrest2]
  simp only [List.map_cons, List.cons_append, List.flatMap_cons]
  simp [spChoices, groupChoices]

/-- Splitting a range at an interior point. -/
theorem range_split (a b : Nat) :
    ∃ rest, List.range (a + (b + 1)) = List.range a ++ a :: rest := by
  refine ⟨(List.range b).map (fun x => a + Nat.succ x), ?_⟩
  rw [List.range_add, List.range_succ_eq_map, List.map_cons, Nat.add_zero, List.map_map]
  rfl

/-- Taking while across a prefix whose elements all satisfy the predicate. -/
theorem takeWhile_append_all {p : Char → Bool} :
    ∀ (a b : List Char), (∀ c ∈ a, p c = true) →
      (a ++ b).takeWhile p = a ++ b.takeWhile p := by
  intro a
  induction a with
  | nil => intro b _; rfl
  | cons x xs ih =>
    intro b h
    rw [List.cons_append, List.takeWhile_cons, h x (List.mem_cons_self _ _)]
    rw [if_pos rfl, List.cons_append, ih b (fun c hc => h c (List.mem_cons_of_mem _ hc))]

/-- No trailer match starts inside the name: for any proper suffix of the
name, the first non-space character is a name character, blocking the
trailer pattern. -/
theorem trailer_blocked_suffix (N R : List Char) (n : Nat) (hn : n < N.length)
    (hl : N.getLast? ≠ some ' ')
    (hbr : ∀ c ∈ N, c ≠ '[' ∧ c ≠ '<') :
    trailerMatches (N.drop n ++ R) = [] := by
  have hM : N.drop n ≠ [] := by
    intro h
    exact absurd (List.drop_eq_nil_iff.mp h) (Nat.not_le_of_lt hn)
  have hlast : (N.drop n).getLast? = N.getLast? := by
    conv_rhs => rw [← List.take_append_drop n N]
    rw [List.getLast?_append_of_ne_nil _ hM]
  have hx_ne : (N.drop n).getLast hM ≠ ' ' := by
    intro hsp
    apply hl
    rw [← hlast, List.getLast?_eq_getLast _ hM, hsp]
  have hdw : (N.drop n).dropWhile (fun c => c = ' ') ≠ [] := by
    intro hcon
    rw [List.dropWhile_eq_nil_iff] at hcon
    exact hx_ne (by simpa using hcon _ (List.getLast_mem hM))
  obtain ⟨c, r, hcr⟩ : ∃ c r, (N.drop n).dropWhile (fun c => c = ' ') = c :: r := by
    cases hc : (N.drop n).dropWhile (fun c => c = ' ') with
    | nil => exact absurd hc hdw
    | cons c r => exact ⟨c, r, rfl⟩
  have hcmem : c ∈ N := by
    apply List.drop_subset n N
    apply (List.dropWhile_sublist _).subset
    rw [hcr]
    exact List.mem_cons_self _ _
  refine trailerMatches_blocked (c := c) ?_ (hbr c hcmem).1 (hbr c hcmem).2
  rw [dropWhile_append_of_ne_nil _ R hdw, hcr]
  rfl

/-- The first match of the full header pattern on a line `:: name trailer`:
the whole name is captured, and the trailer yields its own first match. -/
theorem headerMatches_head (N R : List Char) (tg gm : Option (List Char))
    (hne : N ≠ []) (hh : N.head? ≠ some ' ')
    (hl : N.getLast? ≠ some ' ')
    (hbr : ∀ c ∈ N, c ≠ '[' ∧ c ≠ '<')
    (htr : (trailerMatches R).head? = some (tg, gm)) :
    (headerMatches (':' :: ':' :: (N ++ R))).head? = some (N, tg, gm) := by
  have hhead : (N ++ R).head? ≠ some ' ' := by
    cases N with
    | nil => exact absurd rfl hne
    | cons a b =>
      rw [List.cons_append, List.head?_cons]
      simpa using hh
  have htw : (N ++ R).takeWhile (fun c => c ≠ '[') = N ++ R.takeWhile (fun c => c ≠ '[') :=
    takeWhile_append_all N R (fun c hc => decide_eq_true (hbr c hc).1)
  obtain ⟨restn, hrange⟩ :=
    range_split N.length (R.takeWhile (fun c => c ≠ '[')).length
  have hnc : nameChoices (N ++ R) =
      ((List.range N.length).map (fun n => ((N ++ R).take n, (N ++ R).drop n))) ++
      (N, R) :: (restn.map (fun n => ((N ++ R).take n, (N ++ R).drop n))) := by
    show (List.range (((N ++ R).takeWhile (fun c => c ≠ '[')).length + 1)).map
        (fun n => ((N ++ R).take n, (N ++ R).drop n)) = _
    rw [htw, List.length_append, Nat.add_assoc, hrange]
    rw [List.map_append, List.map_cons, List.take_left, List.drop_left]
  show ((spChoices (N ++ R)).flatMap (fun r1 =>
      (nameChoices r1).flatMap (fun nm =>
      (trailerMatches nm.2).map (fun tgm => (nm.1, tgm.1, tgm.2))))).head? =
    some (N, tg, gm)
  rw [spChoices_no_space hhead]
  simp only [List.flatMap_cons, List.flatMap_nil, List.append_nil]
  rw [hnc, List.flatMap_append, List.flatMap_cons]
  have hfail : ((List.range N.length).map
      (fun n => ((N ++ R).take n, (N ++ R).drop n))).flatMap
      (fun nm => (trailerMatches nm.2).map (fun tgm => (nm.1, tgm.1, tgm.2))) = [] := by
    rw [List.flatMap_eq_nil_iff]
    intro x hx
    obtain ⟨n, hn, rfl⟩ := List.mem_map.mp hx
    rw [List.mem_range] at hn
    have hdrop : (N ++ R).drop n = N.drop n ++ R := by
      rw [List.drop_append_eq_append_drop, Nat.sub_eq_zero_of_le (Nat.le_of_lt hn),
        List.drop_zero]
    show (trailerMatches ((N ++ R).drop n)).map _ = []
    rw [hdrop, trailer_blocked_suffix N R n hn hl hbr, List.map_nil]
  rw [hfail, List.nil_append]
  apply head?_append_some
  show ((trailerMatches R).map (fun tgm => (N, tgm.1, tgm.2))).head? = _
  rw [List.head?_map, htr]
  rfl

/-- Splitting a separator-free word gives the single part. -/
theorem splitChar_no_sep (sep : Char) :
    ∀ (x : List Char), (∀ c ∈ x, c ≠ sep) → splitChar sep x = [x] := by
  intro x
  induction x with
  | nil => intro _; rfl
  | cons c cs ih =>
    intro hx
    have h1 : splitChar sep (c :: cs) =
        match splitChar sep cs with
        | [] => [[c]]
        | p :: ps => (c :: p) :: ps := by
      rw [splitChar, if_neg (hx c (List.mem_cons_self _ _))]
    rw [h1, ih (fun d hd => hx d (List.mem_cons_of_mem _ hd))]

/-- Splitting at an explicit separator after a separator-free word. -/
theorem splitChar_sep_cons (sep : Char) :
    ∀ (x : List Char), (∀ c ∈ x, c ≠ sep) → ∀ (rest : List Char),
      splitChar sep (x ++ sep :: rest) = x :: splitChar sep rest := by
  intro x
  induction x with
  | nil =>
    intro _ rest
    rw [List.nil_append, splitChar, if_pos rfl]
  | cons c cs ih =>
    intro hx rest
    rw [List.cons_append]
    have h1 : splitChar sep (c :: (cs ++ sep :: rest)) =
        match splitChar sep (cs ++ sep :: rest) with
        | [] => [[c]]
        | p :: ps => (c :: p) :: ps := by
      rw [splitChar, if_neg (hx c (List.mem_cons_self _ _))]
    rw [h1, ih (fun d hd => hx d (List.mem_cons_of_mem _ hd)) rest]

/-- Splitting undoes joining: the separated flattening of a nonempty list of
separator-free words splits back into those words. -/
theorem splitChar_flat (sep : Char) :
    ∀ (xs : List String) (x : String), (∀ c ∈ x.data, c ≠ sep) →
      (∀ y ∈ xs, ∀ c ∈ y.data, c ≠ sep) →
      splitChar sep (x.data ++ xs.flatMap (fun y => sep :: y.data)) =
        x.data :: xs.map String.data := by
  intro xs
  induction xs with
  | nil =>
    intro x hx _
    simp only [List.flatMap_nil, List.append_nil, List.map_nil]
    exact splitChar_no_sep sep x.data hx
  | cons y ys ih =>
    intro x hx hys
    rw [List.flatMap_cons]
    have hassoc : x.data ++ ((sep :: y.data) ++ ys.flatMap (fun y => sep :: y.data)) =
        x.data ++ sep :: (y.data ++ ys.flatMap (fun y => sep :: y.data)) := by
      simp
    rw [hassoc, splitChar_sep_cons sep x.data hx,
      ih y (hys y (List.mem_cons_self _ _)) (fun z hz => hys z (List.mem_cons_of_mem _ hz)),
      List.map_cons]

/-- Character data of a join by a one-character separator. -/
theorem joinSep_data_single (sep : String) (c : Char) (hs : sep.data = [c]) :
    ∀ (xs : List String) (x : String),
      (joinSep sep (x :: xs)).data = x.data ++ xs.flatMap (fun y => c :: y.data) := by
  intro xs
  induction xs with
  | nil => intro x; simp [joinSep]
  | cons y ys ih =>
    intro x
    show ((x ++ sep) ++ joinSep sep (y :: ys)).data = _
    rw [String.data_append, String.data_append, ih y, hs]
    simp

/-- Character membership in a joined string comes from the separator or from
one of the parts. -/
theorem mem_joinSep_data (sep : String) :
    ∀ (xs : List String) (c : Char), c ∈ (joinSep sep xs).data →
      c ∈ sep.data ∨ ∃ x ∈ xs, c ∈ x.data := by
  intro xs
  induction xs with
  | nil =>
    intro c hc
    exact absurd hc (by simp [joinSep, String.data])
  | cons x ys ih =>
    intro c hc
    cases ys with
    | nil =>
      right
      exact ⟨x, List.mem_cons_self _ _, by simpa [joinSep] using hc⟩
    | cons y zs =>
      rw [show joinSep sep (x :: y :: zs) = (x ++ sep) ++ joinSep sep (y :: zs) from rfl] at hc
      rw [String.data_append, String.data_append] at hc
      rcases List.mem_append.mp hc with h1 | h1
      · rcases List.mem_append.mp h1 with h2 | h2
        · right; exact ⟨x, List.mem_cons_self _ _, h2⟩
        · left; exact h2
      · rcases ih c h1 with h | ⟨z, hz, hcz⟩
        · left; exact h
        · right; exact ⟨z, List.mem_cons_of_mem _ hz, hcz⟩

/-- Rebuilding strings from their character data is the identity. -/
theorem map_mk_map_data :
    ∀ (l : List String), (l.map String.data).map String.mk = l := by
  intro l
  induction l with
  | nil => rfl
  | cons a as ih => rw [List.map_cons, List.map_cons, ih]

/-- C9 counterexample: a passage whose name contains `[` renders to a header
line (`::a[`) that the regex does not match at all, so re-parsing yields no
name, not the original name. -/
theorem c9_counterexample :
    (parse_passage_header (Passage.passage_header
      { name := "a[", tags := [], geometry := [], content := [] })).1 = none := by
  decide

/-- C9 amended: the header round-trip holds for well-formed passages — a
nonempty name that does not start or end with a space and contains neither
`[` nor `<`, nonempty tags containing neither spaces nor `]`, and geometry
entries containing neither commas nor `>`: rendering with `passage_header`
and re-parsing with `parse_passage_header` returns the name, the tag list
(with empty tags parsing back as no-tags) and the geometry list (with empty
geometry parsing back as no-geometry). -/
theorem c9_amended (p : Passage)
    (hne : p.name.data ≠ [])
    (hh : p.name.data.head? ≠ some ' ')
    (hl : p.name.data.getLast? ≠ some ' ')
    (hbr : ∀ c ∈ p.name.data, c ≠ '[' ∧ c ≠ '<')
    (htag : ∀ t ∈ p.tags, t.data ≠ [] ∧ ∀ c ∈ t.data, c ≠ ' ' ∧ c ≠ ']')
    (hgeo : ∀ g ∈ p.geometry, ∀ c ∈ g.data, c ≠ ',' ∧ c ≠ '>') :
    parse_passage_header p.passage_header =
      (some p.name,
       (if p.tags = [] then none else some p.tags),
       (if p.geometry = [] then none else some p.geometry)) := by
  have hJtag : ∀ c ∈ (joinSep " " p.tags).data, c ≠ ']' := by
    intro c hc
    rcases mem_joinSep_data " " p.tags c hc with h | ⟨x, hx, hcx⟩
    · have hcsp : c = ' ' := by simpa using h
      rw [hcsp]; decide
    · exact ((htag x hx).2 c hcx).2
  have hJgeo : ∀ c ∈ (joinSep "," p.geometry).data, c ≠ '>' := by
    intro c hc
    rcases mem_joinSep_data "," p.geometry c hc with h | ⟨x, hx, hcx⟩
    · have hcc : c = ',' := by simpa using h
      rw [hcc]; decide
    · exact (hgeo x hx c hcx).2
  have hsplitTag : p.tags ≠ [] →
      splitChar ' ' (joinSep " " p.tags).data = p.tags.map String.data := by
    intro ht
    obtain ⟨t, ts, hts⟩ : ∃ t ts, p.tags = t :: ts := by
      cases htags : p.tags with
      | nil => exact absurd htags ht
      | cons a b => exact ⟨a, b, rfl⟩
    rw [hts, joinSep_data_single " " ' ' rfl ts t,
      splitChar_flat ' ' ts t
        (fun c hc => ((htag t (hts ▸ List.mem_cons_self _ _)).2 c hc).1)
        (fun z hz c hc => ((htag z (hts ▸ List.mem_cons_of_mem _ hz)).2 c hc).1),
      List.map_cons]
  have hsplitGeo : p.geometry ≠ [] →
      splitChar ',' (joinSep "," p.geometry).data = p.geometry.map String.data := by
    intro hg
    obtain ⟨g, gs, hgs⟩ : ∃ g gs, p.geometry = g :: gs := by
      cases hgeos : p.geometry with
      | nil => exact absurd hgeos hg
      | cons a b => exact ⟨a, b, rfl⟩
    rw [hgs, joinSep_data_single "," ',' rfl gs g,
      splitChar_flat ',' gs g
        (fun c hc => (hgeo g (hgs ▸ List.mem_cons_self _ _) c hc).1)
        (fun z hz c hc => (hgeo z (hgs ▸ List.mem_cons_of_mem _ hz) c hc).1),
      List.map_cons]
  have hfilterTag : (p.tags.map String.data).filter (fun x => x ≠ []) =
      p.tags.map String.data := by
    rw [List.filter_eq_self]
    intro a ha
    obtain ⟨x, hx, rfl⟩ := List.mem_map.mp ha
    exact decide_eq_true (htag x hx).1
  by_cases ht : p.tags = []
  · by_cases hg : p.geometry = []
    · have hdata : p.passage_header.data =
          ':' :: ':' :: (p.name.data ++ ([] : List Char)) := by
        unfold Passage.passage_header
        rw [if_neg (fun h => h ht), if_neg (fun h => h hg),
          String.append_empty, String.append_empty, List.append_nil,
          String.data_append]
        rfl
      unfold parse_passage_header
      rw [hdata, headerMatches_head p.name.data [] none none hne hh hl hbr (by decide)]
      rw [if_pos ht, if_pos hg]
      rfl
    · have hdata : p.passage_header.data =
          ':' :: ':' :: (p.name.data ++
            (' ' :: '<' :: ((joinSep "," p.geometry).data ++ ['>']))) := by
        unfold Passage.passage_header
        rw [if_neg (fun h => h ht), if_pos hg, String.append_empty]
        simp only [String.data_append]
        simp
      unfold parse_passage_header
      rw [hdata, headerMatches_head p.name.data _ none (some (joinSep "," p.geometry).data)
        hne hh hl hbr (trailer_head_geo (joinSep "," p.geometry).data hJgeo)]
      show (some (String.mk p.name.data), (none : Option (List String)),
          some ((splitChar ',' (joinSep "," p.geometry).data).map String.mk)) = _
      rw [hsplitGeo hg, map_mk_map_data, if_pos ht, if_neg hg]
  · by_cases hg : p.geometry = []
    · have hdata : p.passage_header.data =
          ':' :: ':' :: (p.name.data ++
            (' ' :: '[' :: ((joinSep " " p.tags).data ++ [']']))) := by
        unfold Passage.passage_header
        rw [if_pos ht, if_neg (fun h => h hg), String.append_empty]
        simp only [String.data_append]
        simp
      unfold parse_passage_header
      rw [hdata, headerMatches_head p.name.data _ (some (joinSep " " p.tags).data) none
        hne hh hl hbr (trailer_head_tags (joinSep " " p.tags).data hJtag)]
      show (some (String.mk p.name.data),
          some ((((splitChar ' ' (joinSep " " p.tags).data).filter
            (fun x => x ≠ [])).map String.mk)),
          (none : Option (List String))) = _
      rw [hsplitTag ht, hfilterTag, map_mk_map_data, if_neg ht, if_pos hg]
    · have hdata : p.passage_header.data =
          ':' :: ':' :: (p.name.data ++
            (' ' :: '[' :: ((joinSep " " p.tags).data ++
              ']' :: ' ' :: '<' :: ((joinSep "," p.geometry).data ++ ['>'])))) := by
        unfold Passage.passage_header
        rw [if_pos ht, if_pos hg]
        simp only [String.data_append]
        simp
      unfold parse_passage_header
      rw [hdata, headerMatches_head p.name.data _
        (some (joinSep " " p.tags).data) (some (joinSep "," p.geometry).data)
        hne hh hl hbr
        (trailer_head_tags_geo (joinSep " " p.tags).data (joinSep "," p.geometry).data
          hJtag hJgeo)]
      show (some (String.mk p.name.data),
          some ((((splitChar ' ' (joinSep " " p.tags).data).filter
            (fun x => x ≠ [])).map String.mk)),
          some ((splitChar ',' (joinSep "," p.geometry).data).map String.mk)) = _
      rw [hsplitTag ht, hfilterTag, hsplitGeo hg, map_mk_map_data, map_mk_map_data,
        if_neg ht, if_neg hg]

/-- C9 witness: the amended round-trip at a concrete passage with name
`p 1`, tags `a`, `b` and geometry `10`, 20`. -/
theorem c9_witness :
    parse_passage_header (Passage.passage_header
      { name := "p 1", tags := ["a", "b"], geometry := ["10", "20"], content := [] }) =
      (some "p 1", some ["a", "b"], some ["10", "20"]) := by
  simpa using c9_amended
    { name := "p 1", tags := ["a", "b"], geometry := ["10", "20"], content := [] }
    (by decide) (by decide) (by decide) (by decide) (by decide) (by decide)

end Twee
